/-
Verification of the schema-inference core of csv2pg-ai-schema-infer.

This file gives a shallow embedding in Lean 4 of the Python modules
`inference.py`, `chunker.py` and the row-projection helper of `sampler.py`,
and proves properties of that embedding.

Modelling conventions:
  * Python strings are Lean `String`s; character-level work happens on
    `String.data : List Char`.  ASCII semantics are used for `str.lower`,
    `str.isdigit` and the regex character classes (the repository only ever
    feeds CSV header/value text through them); multi-character Unicode
    case-mapping is abstracted away.
  * Python `int(...)`/`float(...)` string parsing is modelled by executable
    parsers over `List Char` following CPython's grammar (optional sign,
    digit groups with single interior underscores, decimal point, exponent,
    `inf`/`infinity`/`nan`).  Parsed floats are represented exactly
    (`Rat`-valued), abstracting IEEE-754 rounding and overflow-to-infinity
    of finite decimal literals; the special values `inf`/`nan` are modelled
    precisely, which is what the error path below depends on.
  * Fallible Python code (functions that can raise) is embedded with
    `Except String`; the error string records the Python exception.
  * `asyncio.gather(*tasks, return_exceptions=True)` resolves every task
    and routes task exceptions into the result list instead of raising, so
    the dispatch step is embedded as one `Except` value per chunk produced
    by a provider oracle, with no outer failure.
-/
import Mathlib

namespace Csv2pg

/-! ### Character helpers (ASCII, `Nat`-valued comparisons for easy arithmetic) -/

/-- Lower-case ASCII letter test, `[a-z]`. -/
def isLowerAZ (c : Char) : Bool := decide (97 ≤ c.toNat ∧ c.toNat ≤ 122)

/-- ASCII digit test, `[0-9]` (Python `str.isdigit` / regex `\d`, ASCII part). -/
def isDigitCh (c : Char) : Bool := decide (48 ≤ c.toNat ∧ c.toNat ≤ 57)

/-- Upper-case ASCII letter test, `[A-Z]`. -/
def isUpperAZ (c : Char) : Bool := decide (65 ≤ c.toNat ∧ c.toNat ≤ 90)

/-- ASCII letter test, `[A-Za-z]`. -/
def isAlphaCh (c : Char) : Bool := isLowerAZ c || isUpperAZ c

/-- Hex digit test, `[0-9a-fA-F]`: the UUID regex is compiled `re.IGNORECASE`. -/
def isHexCh (c : Char) : Bool :=
  isDigitCh c || decide (97 ≤ c.toNat ∧ c.toNat ≤ 102) || decide (65 ≤ c.toNat ∧ c.toNat ≤ 70)

/-- ASCII case-folding of one character (Python `str.lower`, ASCII range). -/
def pyLowerChar (c : Char) : Char :=
  if 65 ≤ c.toNat ∧ c.toNat ≤ 90 then Char.ofNat (c.toNat + 32) else c

/-- Python `str.lower` over the character list. -/
def pyLower (l : List Char) : List Char := l.map pyLowerChar

/-- Whitespace test used by Python `str.strip()` (ASCII whitespace). -/
def isWsCh (c : Char) : Bool :=
  c == ' ' || c == '\t' || c == '\n' || c == '\r' || c == '\x0b' || c == '\x0c'

/-- Remove trailing characters satisfying `p`. -/
def dropEndWhile (p : Char → Bool) : List Char → List Char
  | [] => []
  | c :: cs =>
    match dropEndWhile p cs with
    | [] => if p c then [] else [c]
    | r => c :: r

/-- Python `str.strip()` on a character list. -/
def trimL (l : List Char) : List Char := dropEndWhile isWsCh (l.dropWhile isWsCh)

/-- Python `str.strip()` on strings. -/
def trimS (s : String) : String := ⟨trimL s.data⟩

/-- Does `l` start with `p`?  (Hand-rolled to keep the development
self-contained at the `List Char` level.) -/
def startsWithL : List Char → List Char → Bool
  | _, [] => true
  | [], _ :: _ => false
  | c :: cs, d :: ds => c == d && startsWithL cs ds

/-- Does `needle` occur as a contiguous substring of `hay`?
Models Python's `needle in hay` on strings. -/
def hasSubL (hay needle : List Char) : Bool :=
  match hay with
  | [] => needle == []
  | _ :: cs => startsWithL hay needle || hasSubL cs needle

/-- Substring containment on `String` (Python `in`). -/
def hasSubS (hay needle : String) : Bool := hasSubL hay.data needle.data

/-- Does `l` end with `p`?  Models Python `str.endswith`. -/
def endsWithL (l p : List Char) : Bool := startsWithL l.reverse p.reverse

/-- Python `str.endswith` on strings. -/
def endsWithS (s p : String) : Bool := endsWithL s.data p.data

/-- Python `str.lower` on strings. -/
def toLowerS (s : String) : String := ⟨pyLower s.data⟩

/-! ### Name sanitizer (`inference.sanitize_column_name`) -/

/-- The PostgreSQL reserved keywords table of `inference.py`
(`POSTGRES_RESERVED_KEYWORDS`). -/
def POSTGRES_RESERVED_KEYWORDS : List String :=
  ["all", "analyse", "analyze", "and", "any", "array", "as", "asc", "asymmetric",
   "both", "case", "cast", "check", "collate", "column", "constraint", "create",
   "current_catalog", "current_date", "current_role", "current_time",
   "current_timestamp", "current_user", "default", "deferrable", "desc", "distinct",
   "do", "else", "end", "except", "false", "fetch", "for", "foreign", "from",
   "grant", "group", "having", "in", "initially", "intersect", "into", "lateral",
   "leading", "limit", "localtime", "localtimestamp", "not", "null", "offset",
   "on", "only", "or", "order", "placing", "primary", "references", "returning",
   "select", "session_user", "some", "symmetric", "table", "then", "to", "trailing",
   "true", "union", "unique", "user", "using", "variadic", "when", "where", "window",
   "with"]

/-- The keyword table as character lists. -/
def keywordsL : List (List Char) := POSTGRES_RESERVED_KEYWORDS.map String.data

/-- A character admitted by the sanitizer's character class `[a-z0-9_]`. -/
def isAllowedSan (c : Char) : Bool := isLowerAZ c || isDigitCh c || c == '_'

/-- `re.sub(r'[^a-z0-9_]', '_', ·)`: replace every disallowed character by `_`. -/
def substU (l : List Char) : List Char :=
  l.map fun c => if isAllowedSan c then c else '_'

/-- `re.sub(r'_+', '_', ·)`: collapse each run of underscores to a single one
(keeping the last underscore of every run). -/
def collapseU : List Char → List Char
  | [] => []
  | [c] => [c]
  | c :: d :: rest =>
    if c == '_' && d == '_' then collapseU (d :: rest)
    else c :: collapseU (d :: rest)

/-- `str.strip('_')`: remove leading and trailing underscores. -/
def stripUnders (l : List Char) : List Char :=
  dropEndWhile (· == '_') (l.dropWhile (· == '_'))

/-- Character-list core of `sanitize_column_name`, with the source's steps in
order: lowercase, substitute, collapse, strip, digit guard, empty guard,
keyword guard. -/
def sanitizeL (l : List Char) : List Char :=
  let s1 := substU (pyLower l)
  let s2 := stripUnders (collapseU s1)
  let s3 :=
    match s2 with
    | [] => s2
    | c :: _ => if isDigitCh c then "col_".data ++ s2 else s2
  let s4 := if s3 = [] then "unnamed_column".data else s3
  if keywordsL.contains s4 then s4 ++ "_col".data else s4

/-- `inference.sanitize_column_name`. -/
def sanitize_column_name (name : String) : String := ⟨sanitizeL name.data⟩

/-! ### Data model (`types.py`, the fields the inference core uses) -/

/-- Confidence level for type inference (`types.ConfidenceLevel`). -/
inductive ConfidenceLevel where
  | high
  | medium
  | low
deriving DecidableEq, Repr

/-- Sample data for a column (`types.ColumnSample`).  CSV cell values are
optional strings (`None` for a missing/null cell). -/
structure ColumnSample where
  name : String
  values : List (Option String)
  null_count : Nat
  total_count : Nat
deriving DecidableEq, Repr

/-- Derived property `ColumnSample.null_percentage`, exact-rational valued. -/
def ColumnSample.null_percentage (c : ColumnSample) : Rat :=
  if c.total_count = 0 then 0
  else ((c.null_count : Rat) / (c.total_count : Rat)) * 100

/-- Inferred PostgreSQL type for a column (`types.InferredType`). -/
structure InferredType where
  column_name : String
  pg_type : String
  confidence : ConfidenceLevel
  reasoning : String
  nullable : Bool
  constraints : List String := []
  cast_rule : Option String := none
deriving DecidableEq, Repr

/-- Schema for a single column (`types.ColumnSchema`). -/
structure ColumnSchema where
  name : String
  pg_type : String
  nullable : Bool
  constraints : List String := []
  cast_rule : Option String := none
deriving DecidableEq, Repr

/-- Complete table schema (`types.TableSchema`). -/
structure TableSchema where
  table_name : String
  columns : List ColumnSchema
  primary_key : Option String := none
deriving DecidableEq, Repr

/-- One sampled CSV row: an insertion-ordered dict from header to optional
cell value (`dict[str, Any]` in the source, values being strings or `None`). -/
abbrev Row := List (String × Option String)

/-- Python `row.get(key)`: the stored value if the key is present (that value
may itself be `None`), otherwise `None`. -/
def rowGet (r : Row) (k : String) : Option String :=
  match r.find? (fun p => p.1 == k) with
  | some p => p.2
  | none => none

/-- Python `key in row`. -/
def rowHasKey (r : Row) (k : String) : Bool :=
  (r.find? (fun p => p.1 == k)).isSome

/-- Sampled CSV data (`types.CSVSample`).  Only the fields the inference core
reads are modelled: `headers`, `rows`, and the base name (`path.stem`) of the
source file; delimiter/encoding properties are never consulted by it. -/
structure CSVSample where
  path_stem : String
  headers : List String
  rows : List Row
deriving DecidableEq, Repr

/-- A chunk of columns for processing (`types.ColumnChunk`). -/
structure ColumnChunk where
  chunk_id : Nat
  total_chunks : Nat
  columns : List String
  sample_data : List Row
deriving DecidableEq, Repr

/-! ### Python numeric-literal parsing -/

/-- Value accumulator for a digit group with CPython's underscore rule: after
the leading digit, each following character is a digit or a single underscore
that must be followed by a digit. -/
def digitsVal (acc : Nat) : List Char → Option Nat
  | [] => some acc
  | c :: cs =>
    if isDigitCh c then digitsVal (acc * 10 + (c.toNat - 48)) cs
    else if c = '_' then
      match cs with
      | d :: ds => if isDigitCh d then digitsVal (acc * 10 + (d.toNat - 48)) ds else none
      | [] => none
    else none

/-- Parse a non-empty digit group (underscores allowed inside) to its value. -/
def parseDigitsU : List Char → Option Nat
  | [] => none
  | c :: cs => if isDigitCh c then digitsVal (c.toNat - 48) cs else none

/-- Digit-group parser that also counts the digits (underscores excluded),
used for the fractional part of float literals. -/
def digitsValCnt (acc : Nat) (cnt : Nat) : List Char → Option (Nat × Nat)
  | [] => some (acc, cnt)
  | c :: cs =>
    if isDigitCh c then digitsValCnt (acc * 10 + (c.toNat - 48)) (cnt + 1) cs
    else if c = '_' then
      match cs with
      | d :: ds =>
        if isDigitCh d then digitsValCnt (acc * 10 + (d.toNat - 48)) (cnt + 1) ds else none
      | [] => none
    else none

/-- Parse a non-empty digit group to `(value, digit count)`. -/
def parseDigitsCnt : List Char → Option (Nat × Nat)
  | [] => none
  | c :: cs => if isDigitCh c then digitsValCnt (c.toNat - 48) 1 cs else none

/-- Python `int(str)` on an already-stripped string: optional sign, then a
digit group.  Returns the exact integer value. -/
def pyIntL (l : List Char) : Option Int :=
  match l with
  | c :: rest =>
    if c = '+' then (parseDigitsU rest).map Int.ofNat
    else if c = '-' then (parseDigitsU rest).map fun n => -(n : Int)
    else (parseDigitsU (c :: rest)).map Int.ofNat
  | [] => none

/-- The result of Python `float(str)`: NaN, a signed infinity, or a finite
value (represented exactly as a rational; IEEE rounding abstracted). -/
inductive FloatRep where
  | nan
  | inf (neg : Bool)
  | finite (q : Rat)
deriving DecidableEq, Repr

/-- Integer power of ten as a rational, for decimal exponents. -/
def ratPow10 (e : Int) : Rat :=
  if 0 ≤ e then ((10 : Rat) ^ e.toNat) else 1 / ((10 : Rat) ^ (-e).toNat)

/-- Assemble a finite float value from sign, mantissa digits value `m`, count
`fd` of fractional digits, and decimal exponent `e`. -/
def mkFiniteFloat (neg : Bool) (m fd : Nat) (e : Int) : Rat :=
  let mag : Rat := (m : Rat) * ratPow10 (e - (fd : Int))
  if neg then -mag else mag

/-- Parse a float mantissa (digits, optional decimal point) to
`(digits value, fractional digit count)`. -/
def parseMant (l : List Char) : Option (Nat × Nat) :=
  let ip := l.takeWhile (· ≠ '.')
  let rest := l.dropWhile (· ≠ '.')
  match rest with
  | [] => (parseDigitsCnt ip).map fun vc => (vc.1, 0)
  | '.' :: fp =>
    match ip, fp with
    | [], [] => none
    | [], _ :: _ => (parseDigitsCnt fp).map fun vc => (vc.1, vc.2)
    | _ :: _, [] => (parseDigitsCnt ip).map fun vc => (vc.1, 0)
    | _ :: _, _ :: _ =>
      match parseDigitsCnt ip, parseDigitsCnt fp with
      | some vi, some vf => some (vi.1 * 10 ^ vf.2 + vf.1, vf.2)
      | _, _ => none
  | _ => none

/-- Parse a float exponent (after the `e`): optional sign, digit group. -/
def parseExp (l : List Char) : Option Int :=
  match l with
  | '+' :: rest => (parseDigitsU rest).map Int.ofNat
  | '-' :: rest => (parseDigitsU rest).map fun n => -(n : Int)
  | _ => (parseDigitsU l).map Int.ofNat

/-- Python `float(str)` on an already-stripped string. -/
def pyFloatL (l : List Char) : Option FloatRep :=
  let signBody : Bool × List Char :=
    match l with
    | '+' :: r => (false, r)
    | '-' :: r => (true, r)
    | r => (false, r)
  let neg := signBody.1
  let body := signBody.2
  let low := pyLower body
  if low = "inf".data ∨ low = "infinity".data then some (FloatRep.inf neg)
  else if low = "nan".data then some FloatRep.nan
  else
    let mant := body.takeWhile fun c => c ≠ 'e' ∧ c ≠ 'E'
    let erest := body.dropWhile fun c => c ≠ 'e' ∧ c ≠ 'E'
    match parseMant mant with
    | none => none
    | some mfd =>
      match erest with
      | [] => some (FloatRep.finite (mkFiniteFloat neg mfd.1 mfd.2 0))
      | _ :: etail =>
        match parseExp etail with
        | none => none
        | some e => some (FloatRep.finite (mkFiniteFloat neg mfd.1 mfd.2 e))

/-! ### Pattern tests of the heuristic classifier -/

/-- Full match of the UUID regex
`^[0-9a-f]{8}-[0-9a-f]{4}-[0-9a-f]{4}-[0-9a-f]{4}-[0-9a-f]{12}$` with
`re.IGNORECASE`: length 36, dashes at positions 8, 13, 18, 23, hex digits
elsewhere. -/
def isUuidL (l : List Char) : Bool :=
  l.length == 36 &&
    (List.range 36).all fun i =>
      if i = 8 ∨ i = 13 ∨ i = 18 ∨ i = 23 then l.getD i ' ' == '-'
      else isHexCh (l.getD i ' ')

/-- The boolean-like token set of the classifier. -/
def boolean_values : List String :=
  ["true", "false", "t", "f", "yes", "no", "y", "n", "1", "0"]

/-- Membership of `v.lower()` in the boolean-like token set. -/
def isBooleanLikeS (v : String) : Bool := boolean_values.contains (toLowerS v)

/-- Full match of the date regex `^\d{4}-\d{2}-\d{2}$`. -/
def isDateL (l : List Char) : Bool :=
  match l with
  | [y1, y2, y3, y4, s1, m1, m2, s2, d1, d2] =>
    isDigitCh y1 && isDigitCh y2 && isDigitCh y3 && isDigitCh y4 &&
      s1 == '-' && isDigitCh m1 && isDigitCh m2 && s2 == '-' &&
      isDigitCh d1 && isDigitCh d2
  | _ => false

/-- Prefix match (`re.match`, unanchored at the end) of the timestamp regex
`^\d{4}-\d{2}-\d{2}[T ]\d{2}:\d{2}:\d{2}`. -/
def isTimestampL (l : List Char) : Bool :=
  match l with
  | y1 :: y2 :: y3 :: y4 :: s1 :: m1 :: m2 :: s2 :: d1 :: d2 :: sep :: h1 :: h2 ::
      c1 :: n1 :: n2 :: c2 :: e1 :: e2 :: _ =>
    isDigitCh y1 && isDigitCh y2 && isDigitCh y3 && isDigitCh y4 &&
      s1 == '-' && isDigitCh m1 && isDigitCh m2 && s2 == '-' &&
      isDigitCh d1 && isDigitCh d2 && (sep == 'T' || sep == ' ') &&
      isDigitCh h1 && isDigitCh h2 && c1 == ':' && isDigitCh n1 && isDigitCh n2 &&
      c2 == ':' && isDigitCh e1 && isDigitCh e2
  | _ => false

/-- Character class of the local part of the email regex, `[a-zA-Z0-9._%+-]`. -/
def isLocalCh (c : Char) : Bool :=
  isAlphaCh c || isDigitCh c || c == '.' || c == '_' || c == '%' || c == '+' || c == '-'

/-- Character class of the domain part of the email regex, `[a-zA-Z0-9.-]`. -/
def isDomainCh (c : Char) : Bool :=
  isAlphaCh c || isDigitCh c || c == '.' || c == '-'

/-- Full match of the email regex
`^[a-zA-Z0-9._%+-]+@[a-zA-Z0-9.-]+\.[a-zA-Z]{2,}$`.  Since the TLD part
`[a-zA-Z]{2,}$` must run to the end of the string and the character before it
must be the literal dot, the only viable TLD is the maximal alphabetic
suffix of the domain. -/
def isEmailL (l : List Char) : Bool :=
  let localPart := l.takeWhile (· ≠ '@')
  let rest0 := l.dropWhile (· ≠ '@')
  match rest0 with
  | '@' :: domain =>
    let tld := (domain.reverse.takeWhile isAlphaCh).reverse
    let before := domain.take (domain.length - tld.length)
    !localPart.isEmpty && localPart.all isLocalCh && domain.all isDomainCh &&
      tld.length ≥ 2 && before.length ≥ 2 && before.getLast? == some '.'
  | _ => false

/-- Python `max` over a non-empty integer list (`0` as junk value on `[]`,
which the classifier never hits). -/
def maxI : List Int → Int
  | [] => 0
  | x :: xs => xs.foldl max x

/-- Python `min` over a non-empty integer list. -/
def minI : List Int → Int
  | [] => 0
  | x :: xs => xs.foldl min x

/-- Python `max` over a non-empty natural list. -/
def maxN : List Nat → Nat
  | [] => 0
  | x :: xs => xs.foldl max x

/-- The `has_decimals` computation
`any(v != int(v) for v in float_values if not (v != v))` of the classifier:
iterate the parsed floats, skip NaNs, stop with `True` at the first value
with a fractional part — but `int(v)` of an infinity raises `OverflowError`,
which the surrounding `except (ValueError, TypeError)` does not catch. -/
def has_decimals_check : List FloatRep → Except String Bool
  | [] => .ok false
  | v :: vs =>
    match v with
    | .nan => has_decimals_check vs
    | .inf _ => .error "OverflowError: cannot convert float infinity to integer"
    | .finite q => if q.den ≠ 1 then .ok true else has_decimals_check vs

/-! ### Heuristic classifier (`inference.heuristic_type_inference`) -/

/-- The currency keyword list used for name-based numeric detection. -/
def currency_keywords : List String :=
  ["usd", "price", "value", "amount", "total", "funding", "valuation"]

/-- `inference.heuristic_type_inference`.  The result is `Except` because the
numeric branch can raise `OverflowError` (see `has_decimals_check`); every
other path returns a value. -/
def heuristic_type_inference (column : ColumnSample) : Except String InferredType :=
  let sanitized_name := sanitize_column_name column.name
  let non_null_values :=
    (column.values.filterMap id).filter fun v => !(trimS v == "")
  if non_null_values = [] then
    .ok { column_name := sanitized_name, pg_type := "text", confidence := .low,
          reasoning := "All values are null, defaulting to text", nullable := true }
  else
    let sample_values := non_null_values.take 100
    let str_values := sample_values.map trimS
    if str_values.all fun v => isUuidL v.data then
      .ok { column_name := sanitized_name, pg_type := "uuid", confidence := .high,
            reasoning := "All values match UUID pattern",
            nullable := decide (0 < column.null_percentage) }
    else if str_values.all isBooleanLikeS then
      .ok { column_name := sanitized_name, pg_type := "boolean", confidence := .high,
            reasoning := "All values are boolean-like",
            nullable := decide (0 < column.null_percentage) }
    else
      let is_currency_column := currency_keywords.any fun kw => hasSubS sanitized_name kw
      match str_values.mapM fun v => pyIntL v.data with
      | some int_values =>
        let max_val := maxI int_values
        let min_val := minI int_values
        let pg_type :=
          if -2147483648 ≤ min_val ∧ min_val ≤ 2147483647 ∧
              -2147483648 ≤ max_val ∧ max_val ≤ 2147483647 then "integer"
          else "bigint"
        .ok { column_name := sanitized_name, pg_type := pg_type, confidence := .high,
              reasoning := "All values are integers (range: " ++ toString min_val ++
                " to " ++ toString max_val ++ ")",
              nullable := decide (0 < column.null_percentage) }
      | none =>
        match str_values.mapM fun v => pyFloatL v.data with
        | some float_values =>
          match has_decimals_check float_values with
          | .error e => .error e
          | .ok has_decimals =>
            if is_currency_column || has_decimals then
              .ok { column_name := sanitized_name, pg_type := "numeric",
                    confidence := .high,
                    reasoning := "Numeric values with decimal precision (or currency column)",
                    nullable := decide (0 < column.null_percentage) }
            else
              .ok { column_name := sanitized_name, pg_type := "numeric",
                    confidence := .medium,
                    reasoning := "All values are numeric",
                    nullable := decide (0 < column.null_percentage) }
        | none =>
          if str_values.all fun v => isDateL v.data then
            .ok { column_name := sanitized_name, pg_type := "date", confidence := .high,
                  reasoning := "All values match date pattern (YYYY-MM-DD)",
                  nullable := decide (0 < column.null_percentage) }
          else if str_values.all fun v => isTimestampL v.data then
            .ok { column_name := sanitized_name, pg_type := "timestamptz",
                  confidence := .high,
                  reasoning := "All values match timestamp pattern",
                  nullable := decide (0 < column.null_percentage) }
          else if str_values.all fun v => isEmailL v.data then
            .ok { column_name := sanitized_name, pg_type := "text", confidence := .medium,
                  reasoning := "All values match email pattern",
                  nullable := decide (0 < column.null_percentage) }
          else
            let max_length := maxN (str_values.map String.length)
            if max_length < 255 then
              .ok { column_name := sanitized_name,
                    pg_type := "varchar(" ++ toString (max_length + 50) ++ ")",
                    confidence := .medium,
                    reasoning := "String values with max length " ++ toString max_length,
                    nullable := decide (0 < column.null_percentage) }
            else
              .ok { column_name := sanitized_name, pg_type := "text",
                    confidence := .medium,
                    reasoning := "String values with max length " ++ toString max_length,
                    nullable := decide (0 < column.null_percentage) }

/-! ### Row projection (`sampler.sample_csv_columns`) -/

/-- `sampler.sample_csv_columns`: restrict every sampled row to the given
columns; keys absent from a row are omitted, not filled. -/
def sample_csv_columns (sample : CSVSample) (column_names : List String) : List Row :=
  sample.rows.map fun row =>
    (column_names.filter fun c => rowHasKey row c).map fun c => (c, rowGet row c)

/-! ### Column chunker (`chunker.py`) -/

/-- The slice list `[columns[i*size : i*size+size] for i in range(ceil(n/size))]`
shared by fixed chunking and by the oversized-group split of smart chunking
(`range(0, len(group), size)` produces the same slices). -/
def fixedSlices (columns : List String) (size : Nat) : List (List String) :=
  (List.range ((columns.length + size - 1) / size)).map fun i =>
    (columns.drop (i * size)).take size

/-- `chunker.chunk_columns`: fixed-size chunking.  Fails on an empty column
list (`ValueError`), and on `chunk_size = 0` (Python `ZeroDivisionError` in
the `//` computing `total_chunks`). -/
def chunk_columns (sample : CSVSample) (chunk_size : Nat) : Except String (List ColumnChunk) :=
  let columns := sample.headers
  let total_columns := columns.length
  if total_columns = 0 then .error "No columns to chunk"
  else if chunk_size = 0 then .error "integer division or modulo by zero"
  else
    let total_chunks := (total_columns + chunk_size - 1) / chunk_size
    .ok ((List.range total_chunks).map fun i =>
      let ccols := (columns.drop (i * chunk_size)).take chunk_size
      { chunk_id := i, total_chunks := total_chunks, columns := ccols,
        sample_data := sample_csv_columns sample ccols })

/-- Grouping key of smart chunking: the part of the name before the first
underscore, or the synthetic bucket `"other"` for names without one. -/
def groupKey (col : String) : String :=
  if col.data.contains '_' then ⟨col.data.takeWhile (· ≠ '_')⟩ else "other"

/-- Append `col` to the group keyed `k` of the insertion-ordered group list,
creating the group at the end if the key is new (Python dict semantics). -/
def addToGroups (gs : List (String × List String)) (k col : String) :
    List (String × List String) :=
  match gs with
  | [] => [(k, [col])]
  | (k', cols) :: rest =>
    if k' == k then (k', cols ++ [col]) :: rest
    else (k', cols) :: addToGroups rest k col

/-- Build the prefix groups of smart chunking, in first-seen key order. -/
def buildGroups (columns : List String) : List (String × List String) :=
  columns.foldl (fun gs col => addToGroups gs (groupKey col) col) []

/-- One step of the greedy packing loop of `chunk_columns_smart`: state is
`(chunks_data, current_chunk)`. -/
def packStep (size : Nat) (st : List (List String) × List String)
    (g : String × List String) : List (List String) × List String :=
  let chunks_data := st.1
  let current_chunk := st.2
  let gcols := g.2
  if current_chunk.length + gcols.length > size then
    let chunks1 := if current_chunk ≠ [] then chunks_data ++ [current_chunk] else chunks_data
    if gcols.length > size then (chunks1 ++ fixedSlices gcols size, [])
    else (chunks1, gcols)
  else (chunks_data, current_chunk ++ gcols)

/-- The greedy packing loop of `chunk_columns_smart`, including the final
flush of a non-empty `current_chunk`. -/
def packGroups (size : Nat) (gs : List (String × List String)) : List (List String) :=
  let st := gs.foldl (packStep size) ([], [])
  if st.2 ≠ [] then st.1 ++ [st.2] else st.1

/-- `chunker.chunk_columns_smart`: group-aware chunking.  Fails on an empty
column list (`ValueError`); with `chunk_size = 0` every (non-empty) first
group triggers the oversized split whose `range(0, len, 0)` raises
`ValueError: range() arg 3 must not be zero`. -/
def chunk_columns_smart (sample : CSVSample) (chunk_size : Nat) :
    Except String (List ColumnChunk) :=
  let columns := sample.headers
  if columns.length = 0 then .error "No columns to chunk"
  else if chunk_size = 0 then .error "range() arg 3 must not be zero"
  else
    let chunks_data := packGroups chunk_size (buildGroups columns)
    let total_chunks := chunks_data.length
    .ok (chunks_data.enum.map fun ic =>
      { chunk_id := ic.1, total_chunks := total_chunks, columns := ic.2,
        sample_data := sample_csv_columns sample ic.2 })

/-! ### Inference orchestration (`inference.py`) -/

/-- `inference.build_column_samples`: one `ColumnSample` per header, carrying
the sanitized name; a cell counts as null when it is `None` or blank after
stripping. -/
def build_column_samples (sample : CSVSample) : List ColumnSample :=
  sample.headers.map fun col_name =>
    let sanitized_name := sanitize_column_name col_name
    let values := sample.rows.map fun row => rowGet row col_name
    let null_count := values.countP fun v =>
      match v with
      | none => true
      | some s => trimS s == ""
    { name := sanitized_name, values := values, null_count := null_count,
      total_count := values.length }

/-- Lookup in `sample_map = {cs.name: cs for cs in column_samples}`: the dict
comprehension keeps the last sample inserted under a repeated key. -/
def dictFind (css : List ColumnSample) (k : String) : Option ColumnSample :=
  css.reverse.find? fun cs => cs.name == k

/-- Conversion of an `InferredType` into a `ColumnSchema`, as done by the
merge loops of `infer_schema_async` and `infer_schema_heuristic`. -/
def toColumnSchema (t : InferredType) : ColumnSchema :=
  { name := t.column_name, pg_type := t.pg_type, nullable := t.nullable,
    constraints := t.constraints, cast_rule := t.cast_rule }

/-- Primary-key candidates contributed by one column, with priority score
(lower is better), exactly as the candidate pass of the source: a `uuid`-typed
column is only scored through the name rules requiring `identifier`/`uuid` in
the (lowercased) name; only non-`uuid`-typed columns reach the `id` and `_id`
rules. -/
def candidatesOf (col : ColumnSchema) : List (Nat × String) :=
  let col_lower := toLowerS col.name
  if col.pg_type == "uuid" then
    if hasSubS col_lower "identifier" && hasSubS col_lower "uuid" then [(0, col.name)]
    else if col_lower == "uuid" then [(1, col.name)]
    else if hasSubS col_lower "uuid" then [(2, col.name)]
    else []
  else if col_lower == "id" then [(3, col.name)]
  else if endsWithS col_lower "_id" &&
      (col.pg_type == "integer" || col.pg_type == "bigint") then [(4, col.name)]
  else []

/-- The primary-key selection pass shared verbatim by `infer_schema_async`
and `infer_schema_heuristic`: collect candidates in column order, stable-sort
by score (`list.sort(key=lambda x: x[0])`), take the first. -/
def select_primary_key (columns : List ColumnSchema) : Option String :=
  let pk_candidates := columns.flatMap candidatesOf
  match pk_candidates.mergeSort (fun a b => a.1 ≤ b.1) with
  | [] => none
  | c :: _ => some c.2

/-- `inference.infer_schema_heuristic`: heuristic-only schema inference.
The per-column classifier can raise (see `heuristic_type_inference`), and
such an exception propagates out of the loop. -/
def infer_schema_heuristic (sample : CSVSample) : Except String TableSchema := do
  let column_samples := build_column_samples sample
  let inferred ← column_samples.mapM heuristic_type_inference
  let columns := inferred.map toColumnSchema
  let primary_key := select_primary_key columns
  let table_name := sanitize_column_name sample.path_stem
  return { table_name := table_name, columns := columns, primary_key := primary_key }

/-- The heuristic-fallback pass over the failed chunks of
`infer_schema_async`: for each column name of each failed chunk, look it up
in `sample_map` (silently skipping lookup misses) and reclassify
heuristically. -/
def fallback_types (sample : CSVSample) (failed_chunks : List ColumnChunk) :
    Except String (List InferredType) :=
  let column_samples := build_column_samples sample
  ((failed_chunks.flatMap ColumnChunk.columns).filterMap
      fun col_name => dictFind column_samples col_name).mapM
    heuristic_type_inference

/-- `inference.infer_schema_async`.  The provider is abstracted as an oracle
giving the resolved outcome of `provider.infer_types(chunk)` per chunk;
because the dispatch uses `asyncio.gather(*tasks, return_exceptions=True)`,
every task exception is delivered inside the result list and the
`except ... raise`/full-heuristic-degrade branch around the `await` cannot
fire on task failures, so it has no counterpart here. -/
def infer_schema_async (sample : CSVSample)
    (oracle : ColumnChunk → Except String (List InferredType))
    (chunk_size : Nat) (use_smart_chunking use_fallback : Bool) :
    Except String TableSchema := do
  let chunks ←
    if use_smart_chunking then chunk_columns_smart sample chunk_size
    else chunk_columns sample chunk_size
  let results := chunks.map oracle
  let all_ok := (results.filterMap fun r =>
    match r with
    | .ok tys => some tys
    | .error _ => none).flatten
  let failed_chunks := (chunks.zip results).filterMap fun cr =>
    match cr.2 with
    | .error _ => some cr.1
    | .ok _ => none
  let fallback ←
    if !failed_chunks.isEmpty && use_fallback then fallback_types sample failed_chunks
    else pure []
  let all_inferred_types := all_ok ++ fallback
  let columns := all_inferred_types.map toColumnSchema
  let primary_key := select_primary_key columns
  let table_name := sanitize_column_name sample.path_stem
  return { table_name := table_name, columns := columns, primary_key := primary_key }

/-! ### Decidability instances for concrete evaluation -/

instance : DecidableEq (Except String InferredType) := fun a b =>
  match a, b with
  | .ok x, .ok y => decidable_of_iff (x = y) (by simp)
  | .error x, .error y => decidable_of_iff (x = y) (by simp)
  | .ok _, .error _ => isFalse (by simp)
  | .error _, .ok _ => isFalse (by simp)

instance : DecidableEq (Except String TableSchema) := fun a b =>
  match a, b with
  | .ok x, .ok y => decidable_of_iff (x = y) (by simp)
  | .error x, .error y => decidable_of_iff (x = y) (by simp)
  | .ok _, .error _ => isFalse (by simp)
  | .error _, .ok _ => isFalse (by simp)

instance : DecidableEq (Except String (List ColumnChunk)) := fun a b =>
  match a, b with
  | .ok x, .ok y => decidable_of_iff (x = y) (by simp)
  | .error x, .error y => decidable_of_iff (x = y) (by simp)
  | .ok _, .error _ => isFalse (by simp)
  | .error _, .ok _ => isFalse (by simp)

/-! ### Claim C3 — totality of the heuristic classifier -/

/-- C3: refuted by the code — `heuristic_type_inference` is not total.  On a
column whose single value is `"inf"`, the integer parse fails (`ValueError`,
caught), the float parse yields infinity, and the `has_decimals` computation
evaluates `int(float('inf'))`, raising `OverflowError`, which the
`except (ValueError, TypeError)` clause does not catch: the exception
propagates to the caller instead of falling through to the next pattern
test.  This theorem evaluates the embedded classifier at that failing
input. -/
theorem C3_heuristic_not_total_inf_overflow :
    heuristic_type_inference
      { name := "x", values := [some "inf"], null_count := 0, total_count := 1 } =
    .error "OverflowError: cannot convert float infinity to integer" := by decide

/-! ### Claim C4 — primary-key candidate scoring -/

/-- When the candidate list is non-empty, the selection returns the second
component of a candidate whose score is globally minimal (the pass sorts the
candidates by score and takes the head). -/
theorem select_primary_key_min (cols : List ColumnSchema)
    (h : cols.flatMap candidatesOf ≠ []) :
    ∃ c ∈ cols.flatMap candidatesOf, select_primary_key cols = some c.2 ∧
      ∀ d ∈ cols.flatMap candidatesOf, c.1 ≤ d.1 := by
  have htrans : ∀ (a b c : Nat × String),
      (fun a b : Nat × String => decide (a.1 ≤ b.1)) a b = true →
      (fun a b : Nat × String => decide (a.1 ≤ b.1)) b c = true →
      (fun a b : Nat × String => decide (a.1 ≤ b.1)) a c = true := by
    intro a b c hab hbc
    simp only [decide_eq_true_eq] at *
    omega
  have htot : ∀ (a b : Nat × String),
      ((fun a b : Nat × String => decide (a.1 ≤ b.1)) a b ||
        (fun a b : Nat × String => decide (a.1 ≤ b.1)) b a) = true := by
    intro a b
    simp only [Bool.or_eq_true, decide_eq_true_eq]
    omega
  have hperm := List.mergeSort_perm (cols.flatMap candidatesOf)
    (fun a b : Nat × String => decide (a.1 ≤ b.1))
  have hsorted := List.sorted_mergeSort htrans htot (cols.flatMap candidatesOf)
  cases hms : (cols.flatMap candidatesOf).mergeSort
      (fun a b : Nat × String => decide (a.1 ≤ b.1)) with
  | nil =>
    rw [hms] at hperm
    exact absurd hperm.nil_eq.symm h
  | cons c t =>
    rw [hms] at hperm hsorted
    refine ⟨c, hperm.subset (List.mem_cons_self c t), ?_, ?_⟩
    · simp only [select_primary_key, hms]
    · intro d hd
      have hd' : d ∈ c :: t := hperm.symm.subset hd
      rcases List.mem_cons.1 hd' with hcd | hdt
      · exact le_of_eq (congrArg Prod.fst hcd.symm)
      · exact of_decide_eq_true ((List.pairwise_cons.1 hsorted).1 d hdt)

/-- C4, counterexample: a column named exactly `"id"` whose `pg_type` is
`"uuid"` is not a primary-key candidate at all — the `uuid`-typed branch of
the candidate pass only scores names containing `identifier`/`uuid`, and the
`elif` for the name `"id"` is unreachable for `uuid`-typed columns — so the
schema gets no primary key, where the claim predicts `"id"` with score 3. -/
theorem C4_counterexample :
    select_primary_key [{ name := "id", pg_type := "uuid", nullable := false }] = none := by
  have h : ([{ name := "id", pg_type := "uuid", nullable := false }] :
      List ColumnSchema).flatMap candidatesOf = [] := by decide
  simp only [select_primary_key, h, List.mergeSort_nil]

/-- C4, amended: in primary-key selection, a column whose name is exactly
`"id"` is a candidate with priority score 3 whenever its `pg_type` is not
`"uuid"`; when its `pg_type` is `"uuid"` it contributes no candidate at all
(the claim's "regardless of its pg_type, including uuid" fails); and when
any candidates exist, the selected primary key is (the name component of) a
candidate with the globally lowest score. -/
theorem C4_primary_key_id_scoring (cols : List ColumnSchema) :
    (∀ col ∈ cols, col.name = "id" → col.pg_type ≠ "uuid" →
        (3, col.name) ∈ cols.flatMap candidatesOf) ∧
    (∀ col : ColumnSchema, col.name = "id" → col.pg_type = "uuid" →
        candidatesOf col = []) ∧
    (cols.flatMap candidatesOf ≠ [] →
      ∃ c ∈ cols.flatMap candidatesOf, select_primary_key cols = some c.2 ∧
        ∀ d ∈ cols.flatMap candidatesOf, c.1 ≤ d.1) := by
  refine ⟨?_, ?_, select_primary_key_min cols⟩
  · intro col hmem hname hpg
    refine List.mem_flatMap.2 ⟨col, hmem, ?_⟩
    have h1 : (col.pg_type == "uuid") = false := by
      simpa using hpg
    have h2 : toLowerS "id" = "id" := by decide
    simp [candidatesOf, hname, h1, h2]
  · intro col hname hpg
    have h1 : (col.pg_type == "uuid") = true := by
      simp [hpg]
    have h2 : hasSubS (toLowerS "id") "identifier" = false := by decide
    have h3 : (toLowerS "id" == "uuid") = false := by decide
    have h4 : hasSubS (toLowerS "id") "uuid" = false := by decide
    simp [candidatesOf, hname, h1, h2, h3, h4]

/-- Concrete column list used to witness the amended C4 theorem. -/
def c4cols : List ColumnSchema := [{ name := "id", pg_type := "text", nullable := true }]

/-- Witness for the amended C4 theorem at a concrete column list. -/
theorem C4_primary_key_id_scoring_witness :
    ((3, "id") ∈ c4cols.flatMap candidatesOf ∧
      candidatesOf { name := "id", pg_type := "uuid", nullable := false } = []) ∧
    ∃ c ∈ c4cols.flatMap candidatesOf, select_primary_key c4cols = some c.2 ∧
      ∀ d ∈ c4cols.flatMap candidatesOf, c.1 ≤ d.1 := by
  refine ⟨⟨?_, ?_⟩, ?_⟩
  · exact (C4_primary_key_id_scoring c4cols).1
      { name := "id", pg_type := "text", nullable := true } (by decide) rfl (by decide)
  · exact (C4_primary_key_id_scoring c4cols).2.1
      { name := "id", pg_type := "uuid", nullable := false } rfl rfl
  · exact (C4_primary_key_id_scoring c4cols).2.2 (by decide)

/-! ### Claim C8 — idempotence of the name sanitizer

The proof characterizes the image of `sanitizeL`: every output is a
non-empty string of `[a-z0-9_]` characters with no doubled underscore, whose
first character is neither an underscore nor a digit, whose last character
is not an underscore, and which is not a reserved keyword; and every such
string is a fixed point of `sanitizeL`. -/

/-- No two consecutive underscores. -/
def NoDoubleU (l : List Char) : Prop :=
  l.Chain' fun a b => ¬(a = '_' ∧ b = '_')

/-- Characterization of sanitizer outputs. -/
def SanGood (l : List Char) : Prop :=
  l ≠ [] ∧ (∀ c ∈ l, isAllowedSan c = true) ∧ NoDoubleU l ∧
  Option.all (fun c => !(c == '_') && !isDigitCh c) l.head? = true ∧
  Option.all (fun c => !(c == '_')) l.getLast? = true ∧
  keywordsL.contains l = false

/-- Characters already in `[a-z0-9_]` are fixed by ASCII lowercasing. -/
theorem pyLowerChar_allowed {c : Char} (h : isAllowedSan c = true) :
    pyLowerChar c = c := by
  simp only [isAllowedSan, isLowerAZ, isDigitCh, Bool.or_eq_true, decide_eq_true_eq,
    beq_iff_eq] at h
  have hc : ¬(65 ≤ c.toNat ∧ c.toNat ≤ 90) := by
    rcases h with (h | h) | h
    · omega
    · omega
    · subst h
      decide
  unfold pyLowerChar
  rw [if_neg hc]

/-- Every character of a substitution output is in `[a-z0-9_]`. -/
theorem substU_allowed {l : List Char} {c : Char} (h : c ∈ substU l) :
    isAllowedSan c = true := by
  obtain ⟨a, _, ha⟩ := List.mem_map.1 h
  by_cases hall : isAllowedSan a = true
  · rw [if_pos hall] at ha
    exact ha ▸ hall
  · rw [if_neg hall] at ha
    subst ha
    decide

/-- The substitution fixes strings of allowed characters. -/
theorem substU_fix {l : List Char} (h : ∀ c ∈ l, isAllowedSan c = true) :
    substU l = l := by
  unfold substU
  rw [List.map_congr_left fun c hc => if_pos (h c hc)]
  exact List.map_id l

/-- Lowercasing fixes strings of allowed characters. -/
theorem pyLower_fix {l : List Char} (h : ∀ c ∈ l, isAllowedSan c = true) :
    pyLower l = l := by
  unfold pyLower
  rw [List.map_congr_left fun c hc => pyLowerChar_allowed (h c hc)]
  exact List.map_id l

/-- Underscore-collapsing only returns characters of its input. -/
theorem collapseU_subset {l : List Char} {c : Char} (h : c ∈ collapseU l) : c ∈ l := by
  induction l using collapseU.induct with
  | case1 => simpa [collapseU] using h
  | case2 a => simpa [collapseU] using h
  | case3 a d rest hcond ih =>
    rw [collapseU, if_pos hcond] at h
    exact List.mem_cons_of_mem a (ih h)
  | case4 a d rest hcond ih =>
    rw [collapseU, if_neg hcond] at h
    rcases List.mem_cons.1 h with h | h
    · exact h ▸ List.mem_cons_self a _
    · exact List.mem_cons_of_mem a (ih h)

/-- The head of a collapse of a non-empty list: it is the original head, or
an underscore produced from an underscore head. -/
theorem collapseU_head (rest : List Char) :
    ∀ d : Char, ∃ e t, collapseU (d :: rest) = e :: t ∧ (e = d ∨ (e = '_' ∧ d = '_')) := by
  induction rest with
  | nil => exact fun d => ⟨d, [], rfl, Or.inl rfl⟩
  | cons r rs ih =>
    intro d
    by_cases hcond : (d == '_' && r == '_') = true
    · obtain ⟨e, t, het, he⟩ := ih r
      refine ⟨e, t, ?_, ?_⟩
      · rw [collapseU, if_pos hcond, het]
      · simp only [Bool.and_eq_true, beq_iff_eq] at hcond
        rcases he with he | he
        · exact Or.inr ⟨he.trans hcond.2, hcond.1⟩
        · exact Or.inr ⟨he.1, hcond.1⟩
    · exact ⟨d, collapseU (r :: rs), by rw [collapseU, if_neg hcond], Or.inl rfl⟩

/-- Collapsing removes all doubled underscores. -/
theorem collapseU_noDouble (l : List Char) : NoDoubleU (collapseU l) := by
  induction l using collapseU.induct with
  | case1 => simp [collapseU, NoDoubleU]
  | case2 a => simp [collapseU, NoDoubleU]
  | case3 a d rest hcond ih =>
    rw [collapseU, if_pos hcond]
    exact ih
  | case4 a d rest hcond ih =>
    rw [collapseU, if_neg hcond]
    obtain ⟨e, t, het, he⟩ := collapseU_head rest d
    rw [het] at ih ⊢
    refine List.chain'_cons.2 ⟨?_, ih⟩
    simp only [Bool.and_eq_true, beq_iff_eq] at hcond
    rintro ⟨ha, hee⟩
    rcases he with he | he
    · exact hcond ⟨ha, he ▸ hee⟩
    · exact hcond ⟨ha, he.2⟩

/-- Collapsing fixes strings with no doubled underscore. -/
theorem collapseU_fix {l : List Char} (h : NoDoubleU l) : collapseU l = l := by
  induction l using collapseU.induct with
  | case1 => rfl
  | case2 a => rfl
  | case3 a d rest hcond ih =>
    exfalso
    simp only [Bool.and_eq_true, beq_iff_eq] at hcond
    exact (List.chain'_cons.1 h).1 hcond
  | case4 a d rest hcond ih =>
    rw [collapseU, if_neg hcond, ih (List.chain'_cons.1 h).2]

/-- Dropping a prefix preserves the no-double-underscore chain. -/
theorem chain'_dropWhile {R : Char → Char → Prop} {p : Char → Bool} {l : List Char}
    (h : l.Chain' R) : (l.dropWhile p).Chain' R := by
  induction l with
  | nil => simpa using h
  | cons c cs ih =>
    rw [List.dropWhile_cons]
    split
    · exact ih h.tail
    · exact h

/-- The head surviving `dropWhile` fails the predicate. -/
theorem head_dropWhile_false {p : Char → Bool} {l : List Char} {c : Char}
    (h : (l.dropWhile p).head? = some c) : p c = false := by
  induction l with
  | nil => simp at h
  | cons a as ih =>
    rw [List.dropWhile_cons] at h
    by_cases hp : p a = true
    · rw [if_pos hp] at h
      exact ih h
    · rw [if_neg hp] at h
      simp only [List.head?_cons, Option.some_inj] at h
      rw [← h]
      exact Bool.eq_false_iff.2 hp

/-- `dropWhile` fixes lists whose head fails the predicate. -/
theorem dropWhile_fix {p : Char → Bool} {l : List Char}
    (h : ∀ c, l.head? = some c → p c = false) : l.dropWhile p = l := by
  cases l with
  | nil => rfl
  | cons c cs =>
    rw [List.dropWhile_cons, if_neg]
    rw [h c rfl]
    simp

/-- Characters of `dropEndWhile` come from the input. -/
theorem dropEndWhile_subset {p : Char → Bool} {l : List Char} {c : Char}
    (h : c ∈ dropEndWhile p l) : c ∈ l := by
  induction l with
  | nil => simpa [dropEndWhile] using h
  | cons a as ih =>
    rw [dropEndWhile] at h
    rcases hr : dropEndWhile p as with _ | ⟨x, t⟩
    · rw [hr] at h
      by_cases hp : p a = true
      · rw [if_pos hp] at h
        simp at h
      · rw [if_neg hp] at h
        simp only [List.mem_singleton] at h
        exact h ▸ List.mem_cons_self a as
    · rw [hr] at h
      rcases List.mem_cons.1 h with h | h
      · exact h ▸ List.mem_cons_self a as
      · exact List.mem_cons_of_mem a (ih (hr ▸ h))

/-- When `dropEndWhile` returns a non-empty list, it preserves the head. -/
theorem dropEndWhile_head {p : Char → Bool} {l : List Char} {x : Char} {r : List Char}
    (h : dropEndWhile p l = x :: r) : l.head? = some x := by
  cases l with
  | nil => simp [dropEndWhile] at h
  | cons a as =>
    rw [dropEndWhile] at h
    rcases hr : dropEndWhile p as with _ | ⟨y, t⟩
    · rw [hr] at h
      by_cases hp : p a = true
      · rw [if_pos hp] at h
        simp at h
      · rw [if_neg hp] at h
        simp only [List.cons.injEq] at h
        rw [h.1]
        rfl
    · rw [hr] at h
      simp only [List.cons.injEq] at h
      rw [h.1]
      rfl

/-- Removing a trailing run preserves a chain condition. -/
theorem chain'_dropEndWhile {R : Char → Char → Prop} {p : Char → Bool} {l : List Char}
    (h : l.Chain' R) : (dropEndWhile p l).Chain' R := by
  induction l with
  | nil => simpa [dropEndWhile] using h
  | cons a as ih =>
    rw [dropEndWhile]
    rcases hr : dropEndWhile p as with _ | ⟨x, t⟩
    · by_cases hp : p a = true
      · rw [if_pos hp]
        exact List.chain'_nil
      · rw [if_neg hp]
        exact List.chain'_singleton a
    · have hx : as.head? = some x := dropEndWhile_head hr
      obtain ⟨as', rfl⟩ : ∃ as', as = x :: as' := by
        cases as with
        | nil => simp at hx
        | cons b bs =>
          simp only [List.head?_cons, Option.some_inj] at hx
          exact ⟨bs, by rw [hx]⟩
      refine List.chain'_cons.2 ⟨?_, ?_⟩
      · exact (List.chain'_cons.1 h).1
      · exact hr ▸ ih h.tail

/-- The last character surviving `dropEndWhile` fails the predicate. -/
theorem getLast_dropEndWhile_false {p : Char → Bool} {l : List Char} {c : Char}
    (h : (dropEndWhile p l).getLast? = some c) : p c = false := by
  induction l with
  | nil => simp [dropEndWhile] at h
  | cons a as ih =>
    rw [dropEndWhile] at h
    rcases hr : dropEndWhile p as with _ | ⟨x, t⟩
    · rw [hr] at h
      by_cases hp : p a = true
      · rw [if_pos hp] at h
        simp at h
      · rw [if_neg hp] at h
        simp only [List.getLast?_singleton, Option.some_inj] at h
        rw [← h]
        exact Bool.eq_false_iff.2 hp
    · rw [hr, List.getLast?_cons_cons] at h
      exact ih (hr ▸ h)

/-- `dropEndWhile` fixes lists whose last element fails the predicate. -/
theorem dropEndWhile_fix {p : Char → Bool} {l : List Char}
    (h : ∀ c, l.getLast? = some c → p c = false) : dropEndWhile p l = l := by
  induction l with
  | nil => rfl
  | cons a as ih =>
    rw [dropEndWhile]
    cases as with
    | nil =>
      simp only [dropEndWhile]
      rw [if_neg]
      rw [h a rfl]
      simp
    | cons b bs =>
      have has : dropEndWhile p (b :: bs) = b :: bs := by
        refine ih ?_
        intro c hc
        refine h c ?_
        rw [List.getLast?_cons_cons]
        exact hc
      rw [has]
/-- A list starts with any of its own copies prepended to a remainder. -/
theorem startsWith_append (p r : List Char) : startsWithL (p ++ r) p = true := by
  induction p with
  | nil => cases r <;> rfl
  | cons c cs ih => simpa [startsWithL] using ih

/-- Boolean no-doubled-underscore check, kernel-evaluable for concrete
strings. -/
def noDouble : List Char → Bool
  | [] => true
  | [_] => true
  | a :: b :: t => !(a == '_' && b == '_') && noDouble (b :: t)

/-- The boolean check agrees with the chain form. -/
theorem noDouble_iff (l : List Char) : noDouble l = true ↔ NoDoubleU l := by
  induction l using noDouble.induct with
  | case1 => simp [noDouble, NoDoubleU]
  | case2 a => simp [noDouble, NoDoubleU]
  | case3 a b t ih =>
    rw [noDouble, NoDoubleU, List.chain'_cons, Bool.and_eq_true, ih]
    constructor
    · rintro ⟨h1, h2⟩
      refine ⟨?_, h2⟩
      rintro ⟨ha, hb⟩
      subst ha hb
      simp at h1
    · rintro ⟨h1, h2⟩
      refine ⟨?_, h2⟩
      have hab : ¬(a == '_' && b == '_') = true := by
        intro hab
        simp only [Bool.and_eq_true, beq_iff_eq] at hab
        exact h1 hab
      simp only [Bool.not_eq_true']
      exact Bool.eq_false_iff.2 hab

/-- Appending `_col` to a reserved keyword never lands back in the table. -/
theorem kw_append_col : ∀ kw ∈ keywordsL, keywordsL.contains (kw ++ "_col".data) = false := by
  decide

/-- No reserved keyword starts with `col_`. -/
theorem kw_not_col_start : ∀ kw ∈ keywordsL, startsWithL kw "col_".data = false := by
  decide

/-- Nothing of the form `col_…` is a reserved keyword. -/
theorem contains_col_prepend_false (x : List Char) :
    keywordsL.contains ("col_".data ++ x) = false := by
  by_contra h
  rw [Bool.not_eq_false] at h
  have h1 : "col_".data ++ x ∈ keywordsL := by simpa using h
  have h2 := kw_not_col_start _ h1
  rw [startsWith_append] at h2
  simp at h2

/-- All characters of the `col_` prefix and `_col` suffix are admissible. -/
theorem col_chars_allowed : (∀ c ∈ "col_".data, isAllowedSan c = true) ∧
    (∀ c ∈ "_col".data, isAllowedSan c = true) := by decide

/-- `SanGood` strings are fixed points of the sanitizer core. -/
theorem sanGood_fix {m : List Char} (hg : SanGood m) : sanitizeL m = m := by
  obtain ⟨hne, hall, hnd, hhead, hlast, hkw⟩ := hg
  obtain ⟨c, cs, rfl⟩ := List.exists_cons_of_ne_nil hne
  rw [List.head?_cons, Option.all_some, Bool.and_eq_true] at hhead
  have hc_ne : (c == '_') = false := by
    rcases hhead with ⟨h1, _⟩
    simpa using h1
  have hc_dig : isDigitCh c = false := by
    rcases hhead with ⟨_, h2⟩
    simpa using h2
  have hkw' : (c :: cs) ∉ keywordsL := by simpa using hkw
  have h1 : pyLower (c :: cs) = c :: cs := pyLower_fix hall
  have h2 : substU (c :: cs) = c :: cs := substU_fix hall
  have h3 : collapseU (c :: cs) = c :: cs := collapseU_fix hnd
  have h4 : (c :: cs).dropWhile (· == '_') = c :: cs := by
    refine dropWhile_fix ?_
    intro d hd
    rw [List.head?_cons, Option.some_inj] at hd
    exact hd ▸ hc_ne
  have h5 : dropEndWhile (· == '_') (c :: cs) = c :: cs := by
    refine dropEndWhile_fix ?_
    intro d hd
    rw [hd, Option.all_some] at hlast
    simpa using hlast
  unfold sanitizeL stripUnders
  simp only [h1, h2, h3, h4, h5]
  simp [hc_dig, hkw']

/-- Prefixing `col_` to a good stripped string yields a `SanGood` string. -/
theorem sanGood_colPrefix {c : Char} {cs : List Char}
    (hall : ∀ d ∈ c :: cs, isAllowedSan d = true)
    (hnd : NoDoubleU (c :: cs))
    (hc : c ≠ '_')
    (hlast : Option.all (fun d => !(d == '_')) (c :: cs).getLast? = true) :
    SanGood ("col_".data ++ c :: cs) := by
  refine ⟨by simp, ?_, ?_, ?_, ?_, contains_col_prepend_false _⟩
  · intro d hd
    rcases List.mem_append.1 hd with hm | hm
    · exact col_chars_allowed.1 d hm
    · exact hall d hm
  · refine List.chain'_append.2 ⟨(noDouble_iff _).1 (by decide), hnd, ?_⟩
    intro x hx y hy
    have hx' : x = '_' := by
      rw [show ("col_".data : List Char).getLast? = some '_' from rfl] at hx
      have := hx
      simp at this
      exact this.symm
    have hy' : y = c := by
      have := hy
      simp at this
      exact this.symm
    subst hx'
    subst hy'
    rintro ⟨-, h2⟩
    exact hc h2
  · rw [show ("col_".data ++ c :: cs).head? = some 'c' from rfl, Option.all_some]
    decide
  · rw [List.getLast?_append]
    rcases hgl : (c :: cs).getLast? with _ | g
    · rw [List.getLast?_eq_none_iff] at hgl
      exact absurd hgl (by simp)
    · rw [show (some g).or (("col_".data : List Char).getLast? ) = some g from rfl,
        Option.all_some]
      rw [hgl, Option.all_some] at hlast
      exact hlast

/-- Suffixing `_col` to a keyword-shaped good string yields a `SanGood`
string. -/
theorem sanGood_kwSuffix {c : Char} {cs : List Char}
    (hall : ∀ d ∈ c :: cs, isAllowedSan d = true)
    (hnd : NoDoubleU (c :: cs))
    (hc : c ≠ '_')
    (hcd : isDigitCh c = false)
    (hlast : Option.all (fun d => !(d == '_')) (c :: cs).getLast? = true)
    (hkw : keywordsL.contains (c :: cs) = true) :
    SanGood ((c :: cs) ++ "_col".data) := by
  refine ⟨by simp, ?_, ?_, ?_, ?_, ?_⟩
  · intro d hd
    rcases List.mem_append.1 hd with hm | hm
    · exact hall d hm
    · exact col_chars_allowed.2 d hm
  · refine List.chain'_append.2 ⟨hnd, (noDouble_iff _).1 (by decide), ?_⟩
    intro x hx y hy
    have hy' : y = '_' := by
      rw [show ("_col".data : List Char).head? = some '_' from rfl] at hy
      have := hy
      simp at this
      exact this.symm
    subst hy'
    rcases hgl : (c :: cs).getLast? with _ | g
    · rw [List.getLast?_eq_none_iff] at hgl
      exact absurd hgl (by simp)
    · rw [hgl] at hx
      have hx' : x = g := by
        have := hx
        simp at this
        exact this.symm
      subst hx'
      rw [hgl, Option.all_some] at hlast
      rintro ⟨h1, -⟩
      revert hlast
      simp [h1]
  · rw [show ((c :: cs) ++ "_col".data).head? = some c from rfl, Option.all_some]
    have hcb : (c == '_') = false := by
      simpa using hc
    simp [hcb, hcd]
  · rw [List.getLast?_append,
      show (("_col".data : List Char).getLast?).or ((c :: cs).getLast?) =
        some 'l' from rfl, Option.all_some]
    decide
  · have hmem : (c :: cs) ∈ keywordsL := by simpa using hkw
    exact kw_append_col _ hmem

/-- `SanGood` of the result of the unnamed-column fallback. -/
theorem sanGood_unnamed : SanGood ("unnamed_column".data) := by
  refine ⟨by simp, by decide, (noDouble_iff _).1 (by decide), by decide, by decide, by decide⟩

/-- The tail stages of the sanitizer (digit guard, empty guard, keyword
guard) send the stripped value to a `SanGood` string. -/
theorem sanGood_tail {l s2 : List Char}
    (hg : stripUnders (collapseU (substU (pyLower l))) = s2)
    (hall : ∀ c ∈ s2, isAllowedSan c = true)
    (hnd : NoDoubleU s2)
    (hhead : Option.all (fun c => !(c == '_')) s2.head? = true)
    (hlast : Option.all (fun c => !(c == '_')) s2.getLast? = true) :
    SanGood (sanitizeL l) := by
  unfold sanitizeL
  simp only [hg]
  rcases s2 with _ | ⟨c, cs⟩
  · exact sanGood_unnamed
  rw [List.head?_cons, Option.all_some] at hhead
  have hc_ne : c ≠ '_' := by simpa using hhead
  by_cases hdg : isDigitCh c = true
  · have hne4 : ("col_".data ++ c :: cs) ≠ [] := by simp
    simp only [hdg, if_true, reduceCtorEq, if_neg hne4, contains_col_prepend_false,
      Bool.false_eq_true, if_false]
    exact sanGood_colPrefix hall hnd hc_ne hlast
  · have hdg' : isDigitCh c = false := by simpa using hdg
    simp only [hdg', Bool.false_eq_true, if_false, reduceCtorEq]
    by_cases hkw : keywordsL.contains (c :: cs) = true
    · simp only [hkw, if_true]
      exact sanGood_kwSuffix hall hnd hc_ne hdg' hlast hkw
    · have hkw' : keywordsL.contains (c :: cs) = false := by simpa using hkw
      simp only [hkw', Bool.false_eq_true, if_false]
      refine ⟨by simp, hall, hnd, ?_, hlast, hkw'⟩
      rw [List.head?_cons, Option.all_some]
      have hcb : (c == '_') = false := by simpa using hc_ne
      simp [hcb, hdg']

/-- Every sanitizer output satisfies the `SanGood` characterization. -/
theorem sanGood_out (l : List Char) : SanGood (sanitizeL l) := by
  have hall : ∀ c ∈ stripUnders (collapseU (substU (pyLower l))), isAllowedSan c = true := by
    intro c hc
    unfold stripUnders at hc
    have hc2 := dropEndWhile_subset hc
    have hc3 := (List.dropWhile_sublist _).subset hc2
    exact substU_allowed (collapseU_subset hc3)
  have hnd : NoDoubleU (stripUnders (collapseU (substU (pyLower l)))) :=
    chain'_dropEndWhile (chain'_dropWhile (collapseU_noDouble _))
  have hhead : Option.all (fun c => !(c == '_'))
      (stripUnders (collapseU (substU (pyLower l)))).head? = true := by
    rcases hs : stripUnders (collapseU (substU (pyLower l))) with _ | ⟨x, t⟩
    · simp
    · unfold stripUnders at hs
      have hx := dropEndWhile_head hs
      have hxf := head_dropWhile_false hx
      simp [hxf]
  have hlast : Option.all (fun c => !(c == '_'))
      (stripUnders (collapseU (substU (pyLower l)))).getLast? = true := by
    rcases hgl : (stripUnders (collapseU (substU (pyLower l)))).getLast? with _ | g
    · simp
    · unfold stripUnders at hgl
      have hgf := getLast_dropEndWhile_false hgl
      simp [hgf]
  exact sanGood_tail rfl hall hnd hhead hlast

/-- The sanitizer core is idempotent. -/
theorem sanitizeL_idem (l : List Char) : sanitizeL (sanitizeL l) = sanitizeL l :=
  sanGood_fix (sanGood_out l)

/-- C8: `sanitize_column_name` is idempotent — applying it twice gives the
same result as applying it once, for every input string (in particular for
the empty string, all-digit strings, and reserved-keyword strings). -/
theorem C8_sanitize_idempotent (x : String) :
    sanitize_column_name (sanitize_column_name x) = sanitize_column_name x := by
  unfold sanitize_column_name
  exact congrArg String.mk (sanitizeL_idem x.data)

/-! ### Claims C5 and C6 — chunker invariants -/

/-- `fixedSlices` of the empty list is empty. -/
theorem fixedSlices_nil {size : Nat} (hs : 1 ≤ size) : fixedSlices [] size = [] := by
  unfold fixedSlices
  rw [List.length_nil, Nat.zero_add, Nat.div_eq_of_lt (by omega)]
  rfl

/-- Unrolling of `fixedSlices` on a non-empty list: the first `size` elements
form the first slice, the rest is sliced recursively. -/
theorem fixedSlices_cons {size : Nat} (hs : 1 ≤ size) {l : List String} (hne : l ≠ []) :
    fixedSlices l size = l.take size :: fixedSlices (l.drop size) size := by
  have hlen : 1 ≤ l.length := List.length_pos.2 hne
  have htc : (l.length + size - 1) / size = (l.length - 1) / size + 1 := by
    have h1 : l.length + size - 1 = (l.length - 1) + size := by omega
    rw [h1, Nat.add_div_right _ (by omega)]
  have hdroplen : (l.drop size).length = l.length - size := List.length_drop size l
  have htc2 : ((l.drop size).length + size - 1) / size = (l.length - 1) / size := by
    rw [hdroplen]
    by_cases hls : l.length ≤ size
    · have e1 : l.length - size = 0 := by omega
      rw [e1, Nat.zero_add, Nat.div_eq_of_lt (by omega), Nat.div_eq_of_lt (by omega)]
    · have e1 : l.length - size + size - 1 = (l.length - 1 - size) + size := by omega
      rw [e1, Nat.add_div_right _ (by omega)]
      have e2 : l.length - 1 = (l.length - 1 - size) + size := by omega
      conv_rhs => rw [e2]
      rw [Nat.add_div_right _ (by omega)]
  unfold fixedSlices
  rw [htc, htc2, List.range_succ_eq_map, List.map_cons]
  congr 1
  · rw [Nat.zero_mul, List.drop_zero]
  · rw [List.map_map]
    refine List.map_congr_left ?_
    intro i _
    show (l.drop ((i + 1) * size)).take size = ((l.drop size).drop (i * size)).take size
    rw [List.drop_drop]
    congr 2
    ring

/-- The slices of `fixedSlices` concatenate back to the input list. -/
theorem fixedSlices_flatten {size : Nat} (hs : 1 ≤ size) :
    ∀ l : List String, (fixedSlices l size).flatten = l := by
  have H : ∀ (n : Nat) (l : List String), l.length = n →
      (fixedSlices l size).flatten = l := by
    intro n
    induction n using Nat.strong_induction_on with
    | _ n ih =>
      intro l hn
      rcases Decidable.em (l = []) with rfl | hne
      · rw [fixedSlices_nil hs]
        rfl
      · have hlen : 1 ≤ l.length := List.length_pos.2 hne
        rw [fixedSlices_cons hs hne, List.flatten_cons]
        have hlt : (l.drop size).length < n := by
          rw [List.length_drop]
          omega
        rw [ih _ hlt (l.drop size) rfl, List.take_append_drop]
  intro l
  exact H l.length l rfl

/-- Every slice has at most `size` elements. -/
theorem fixedSlices_le {size : Nat} {l : List String} :
    ∀ s ∈ fixedSlices l size, s.length ≤ size := by
  intro s hsm
  unfold fixedSlices at hsm
  obtain ⟨i, _, rfl⟩ := List.mem_map.1 hsm
  simpa using Nat.min_le_left size _

/-- Every slice except possibly the last has exactly `size` elements. -/
theorem fixedSlices_exact {size : Nat} (hs : 1 ≤ size) {l : List String}
    {i : Nat} (hi : i + 1 < (fixedSlices l size).length) :
    ((fixedSlices l size).get ⟨i, by omega⟩).length = size := by
  have hlen : (fixedSlices l size).length = (l.length + size - 1) / size := by
    unfold fixedSlices
    rw [List.length_map, List.length_range]
  have hl1 : 1 ≤ l.length := by
    by_contra hc
    have : l.length = 0 := by omega
    rw [hlen, this] at hi
    rw [Nat.zero_add, Nat.div_eq_of_lt (by omega)] at hi
    omega
  have hnum : (l.length + size - 1) / size = (l.length - 1) / size + 1 := by
    have h1 : l.length + size - 1 = (l.length - 1) + size := by omega
    rw [h1, Nat.add_div_right _ (by omega)]
  have hbound : (i + 1) * size ≤ l.length := by
    have h2 : i + 1 ≤ (l.length - 1) / size := by
      rw [hlen, hnum] at hi
      omega
    have h3 : (i + 1) * size ≤ (l.length - 1) / size * size :=
      Nat.mul_le_mul_right size h2
    have h4 : (l.length - 1) / size * size ≤ l.length - 1 := Nat.div_mul_le_self _ _
    omega
  have hget : (fixedSlices l size).get ⟨i, by omega⟩ = (l.drop (i * size)).take size := by
    unfold fixedSlices
    simp
  rw [hget, List.length_take, List.length_drop]
  have : size ≤ l.length - i * size := by
    have : (i + 1) * size = i * size + size := by ring
    omega
  omega

/-- Appending a column to its group permutes to appending it at the end. -/
theorem addToGroups_flatMap (gs : List (String × List String)) (k col : String) :
    ((addToGroups gs k col).flatMap Prod.snd).Perm ((gs.flatMap Prod.snd) ++ [col]) := by
  induction gs with
  | nil => simp [addToGroups]
  | cons g rest ih =>
    obtain ⟨k', cols⟩ := g
    rw [addToGroups]
    by_cases hk : (k' == k) = true
    · rw [if_pos hk]
      simp only [List.flatMap_cons]
      rw [List.append_assoc, List.append_assoc]
      exact List.Perm.append_left cols List.perm_append_comm
    · rw [if_neg hk]
      simp only [List.flatMap_cons]
      rw [List.append_assoc]
      exact List.Perm.append_left cols ih

/-- The groups of smart chunking partition the input columns (as a
multiset). -/
theorem buildGroups_flatMap (columns : List String) :
    ((buildGroups columns).flatMap Prod.snd).Perm columns := by
  have H : ∀ (cols : List String) (gs : List (String × List String)),
      ((cols.foldl (fun gs col => addToGroups gs (groupKey col) col) gs).flatMap
        Prod.snd).Perm ((gs.flatMap Prod.snd) ++ cols) := by
    intro cols
    induction cols with
    | nil => simp
    | cons c cs ih =>
      intro gs
      rw [List.foldl_cons]
      refine (ih _).trans ?_
      have hstep := List.Perm.append_right cs (addToGroups_flatMap gs (groupKey c) c)
      refine hstep.trans ?_
      rw [List.append_assoc]
      exact List.Perm.refl _
  simpa [buildGroups] using H columns []

/-- One packing step preserves the packed-so-far concatenation invariant. -/
theorem packStep_flatten {size : Nat} (hs : 1 ≤ size)
    (st : List (List String) × List String) (g : String × List String) :
    ((packStep size st g).1).flatten ++ (packStep size st g).2 =
      st.1.flatten ++ st.2 ++ g.2 := by
  obtain ⟨chunks_data, current⟩ := st
  have hflush : (if current ≠ [] then chunks_data ++ [current] else chunks_data).flatten =
      chunks_data.flatten ++ current := by
    by_cases hc : current = []
    · rw [if_neg (by simp [hc]), hc, List.append_nil]
    · rw [if_pos hc]
      simp
  unfold packStep
  dsimp only
  by_cases hover : current.length + g.2.length > size
  · rw [if_pos hover]
    by_cases hbig : g.2.length > size
    · rw [if_pos hbig]
      simp only [List.flatten_append, hflush]
      rw [fixedSlices_flatten hs, List.append_nil, List.append_assoc]
    · rw [if_neg hbig]
      simp only [hflush]
  · rw [if_neg hover]
    rw [List.append_assoc]

/-- The packed chunks concatenate to the concatenation of the groups. -/
theorem packGroups_flatten {size : Nat} (hs : 1 ≤ size)
    (gs : List (String × List String)) :
    (packGroups size gs).flatten = gs.flatMap Prod.snd := by
  have H : ∀ (gs : List (String × List String)) (st : List (List String) × List String),
      ((gs.foldl (packStep size) st).1).flatten ++ (gs.foldl (packStep size) st).2 =
        st.1.flatten ++ st.2 ++ gs.flatMap Prod.snd := by
    intro gs
    induction gs with
    | nil => simp
    | cons g rest ih =>
      intro st
      rw [List.foldl_cons, ih (packStep size st g), packStep_flatten hs,
        List.flatMap_cons]
      simp [List.append_assoc]
  unfold packGroups
  have h2 := H gs ([], [])
  simp only [List.flatten_nil, List.nil_append] at h2
  by_cases hc : (gs.foldl (packStep size) ([], [])).2 = []
  · rw [if_neg (by simp [hc])]
    rw [hc, List.append_nil] at h2
    exact h2
  · rw [if_pos hc]
    simpa using h2

/-- One packing step keeps every closed chunk and the running chunk within
the size bound. -/
theorem packStep_le {size : Nat}
    {st : List (List String) × List String} {g : String × List String}
    (h1 : ∀ ch ∈ st.1, ch.length ≤ size) (h2 : st.2.length ≤ size) :
    (∀ ch ∈ (packStep size st g).1, ch.length ≤ size) ∧
      (packStep size st g).2.length ≤ size := by
  obtain ⟨chunks_data, current⟩ := st
  dsimp only at h1 h2
  have hflush : ∀ ch ∈ (if current ≠ [] then chunks_data ++ [current] else chunks_data),
      ch.length ≤ size := by
    intro ch hch
    by_cases hc : current = []
    · rw [if_neg (by simp [hc])] at hch
      exact h1 ch hch
    · rw [if_pos hc] at hch
      rcases List.mem_append.1 hch with hm | hm
      · exact h1 ch hm
      · rw [List.mem_singleton] at hm
        exact hm ▸ h2
  unfold packStep
  dsimp only
  by_cases hover : current.length + g.2.length > size
  · rw [if_pos hover]
    by_cases hbig : g.2.length > size
    · rw [if_pos hbig]
      refine ⟨?_, by simp⟩
      intro ch hch
      rcases List.mem_append.1 hch with hm | hm
      · exact hflush ch hm
      · exact fixedSlices_le ch hm
    · rw [if_neg hbig]
      refine ⟨hflush, ?_⟩
      show g.2.length ≤ size
      omega
  · rw [if_neg hover]
    refine ⟨h1, ?_⟩
    show (current ++ g.2).length ≤ size
    rw [List.length_append]
    omega

/-- Every packed chunk respects the size bound. -/
theorem packGroups_le {size : Nat} (gs : List (String × List String)) :
    ∀ ch ∈ packGroups size gs, ch.length ≤ size := by
  have H : ∀ (gs : List (String × List String))
      (st : List (List String) × List String),
      (∀ ch ∈ st.1, ch.length ≤ size) → st.2.length ≤ size →
      (∀ ch ∈ (gs.foldl (packStep size) st).1, ch.length ≤ size) ∧
        (gs.foldl (packStep size) st).2.length ≤ size := by
    intro gs
    induction gs with
    | nil => exact fun st h1 h2 => ⟨h1, h2⟩
    | cons g rest ih =>
      intro st h1 h2
      rw [List.foldl_cons]
      obtain ⟨k1, k2⟩ := packStep_le h1 h2
      exact ih _ k1 k2
  intro ch hch
  unfold packGroups at hch
  obtain ⟨k1, k2⟩ := H gs ([], []) (by simp) (by simp)
  by_cases hc : (gs.foldl (packStep size) ([], [])).2 = []
  · rw [if_neg (by simp [hc])] at hch
    exact k1 ch hch
  · rw [if_pos hc] at hch
    rcases List.mem_append.1 hch with hm | hm
    · exact k1 ch hm
    · rw [List.mem_singleton] at hm
      exact hm ▸ k2

/-- Shape of a successful fixed chunking: the chunk columns are the fixed
slices, ids enumerate `0..N-1`, and every `total_chunks` field is `N`. -/
theorem chunk_columns_shape {sample : CSVSample} {chunk_size : Nat}
    {chunks : List ColumnChunk}
    (h : chunk_columns sample chunk_size = .ok chunks) :
    chunks.map ColumnChunk.columns = fixedSlices sample.headers chunk_size ∧
    chunks.map ColumnChunk.chunk_id = List.range chunks.length ∧
    ∀ c ∈ chunks, c.total_chunks = chunks.length := by
  unfold chunk_columns at h
  by_cases hlen : sample.headers.length = 0
  · rw [if_pos hlen] at h
    exact absurd h (by simp)
  rw [if_neg hlen] at h
  by_cases hcs : chunk_size = 0
  · rw [if_pos hcs] at h
    exact absurd h (by simp)
  rw [if_neg hcs] at h
  simp only [Except.ok.injEq] at h
  subst h
  rw [List.length_map, List.length_range]
  refine ⟨?_, ?_, ?_⟩
  · rw [List.map_map]
    rfl
  · rw [List.map_map]
    have heq : ∀ i ∈ List.range ((sample.headers.length + chunk_size - 1) / chunk_size),
        (ColumnChunk.columns ∘ fun i => ColumnChunk.mk i
          ((sample.headers.length + chunk_size - 1) / chunk_size)
          ((sample.headers.drop (i * chunk_size)).take chunk_size)
          (sample_csv_columns sample
            ((sample.headers.drop (i * chunk_size)).take chunk_size))) i =
          (sample.headers.drop (i * chunk_size)).take chunk_size := fun _ _ => rfl
    have hid : ∀ i ∈ List.range ((sample.headers.length + chunk_size - 1) / chunk_size),
        (ColumnChunk.chunk_id ∘ fun i => ColumnChunk.mk i
          ((sample.headers.length + chunk_size - 1) / chunk_size)
          ((sample.headers.drop (i * chunk_size)).take chunk_size)
          (sample_csv_columns sample
            ((sample.headers.drop (i * chunk_size)).take chunk_size))) i = i := fun _ _ => rfl
    rw [List.map_congr_left hid, List.map_id']
  · intro c hc
    obtain ⟨i, _, rfl⟩ := List.mem_map.1 hc
    rfl

/-- Shape of a successful smart chunking: the chunk columns are the packed
groups, ids enumerate `0..N-1`, and every `total_chunks` field is `N`. -/
theorem chunk_columns_smart_shape {sample : CSVSample} {chunk_size : Nat}
    {chunks : List ColumnChunk}
    (h : chunk_columns_smart sample chunk_size = .ok chunks) :
    chunks.map ColumnChunk.columns = packGroups chunk_size (buildGroups sample.headers) ∧
    chunks.map ColumnChunk.chunk_id = List.range chunks.length ∧
    ∀ c ∈ chunks, c.total_chunks = chunks.length := by
  unfold chunk_columns_smart at h
  by_cases hlen : sample.headers.length = 0
  · rw [if_pos hlen] at h
    exact absurd h (by simp)
  rw [if_neg hlen] at h
  by_cases hcs : chunk_size = 0
  · rw [if_pos hcs] at h
    exact absurd h (by simp)
  rw [if_neg hcs] at h
  simp only [Except.ok.injEq] at h
  subst h
  rw [List.length_map, List.enum_length]
  refine ⟨?_, ?_, ?_⟩
  · rw [List.map_map]
    have heq : ∀ ic ∈ (packGroups chunk_size (buildGroups sample.headers)).enum,
        (ColumnChunk.columns ∘ fun ic : Nat × List String => ColumnChunk.mk ic.1
          (packGroups chunk_size (buildGroups sample.headers)).length
          ic.2 (sample_csv_columns sample ic.2)) ic = Prod.snd ic := fun _ _ => rfl
    rw [List.map_congr_left heq, List.enum_map_snd]
  · rw [List.map_map]
    have hid : ∀ ic ∈ (packGroups chunk_size (buildGroups sample.headers)).enum,
        (ColumnChunk.chunk_id ∘ fun ic : Nat × List String => ColumnChunk.mk ic.1
          (packGroups chunk_size (buildGroups sample.headers)).length
          ic.2 (sample_csv_columns sample ic.2)) ic = Prod.fst ic := fun _ _ => rfl
    rw [List.map_congr_left hid, List.enum_map_fst]
  · intro c hc
    obtain ⟨ic, _, rfl⟩ := List.mem_map.1 hc
    rfl

/-- Both chunkers succeed on a non-empty header list with a positive chunk
size. -/
theorem chunkers_ok (sample : CSVSample) (chunk_size : Nat)
    (h1 : sample.headers ≠ []) (h2 : 1 ≤ chunk_size) :
    (∃ chunks, chunk_columns sample chunk_size = .ok chunks) ∧
    (∃ chunks, chunk_columns_smart sample chunk_size = .ok chunks) := by
  have hlen : ¬(sample.headers.length = 0) := by simpa using h1
  constructor
  · exact ⟨_, by unfold chunk_columns; rw [if_neg hlen, if_neg (by omega)]⟩
  · exact ⟨_, by unfold chunk_columns_smart; rw [if_neg hlen, if_neg (by omega)]⟩


/-- C5: both chunking strategies partition the headers: the chunks' columns
together contain every input column exactly once (for fixed chunking the
concatenation is exactly the header list; for smart chunking it is a
permutation of it), `chunk_id` is assigned `0..N-1` in chunk order, and
every chunk's `total_chunks` field equals the number `N` of chunks
produced. -/
theorem C5_chunk_partition (sample : CSVSample) (chunk_size : Nat)
    (h1 : sample.headers ≠ []) (h2 : 1 ≤ chunk_size) :
    (∃ chunks, chunk_columns sample chunk_size = .ok chunks ∧
      chunks.flatMap ColumnChunk.columns = sample.headers ∧
      chunks.map ColumnChunk.chunk_id = List.range chunks.length ∧
      ∀ c ∈ chunks, c.total_chunks = chunks.length) ∧
    (∃ chunks, chunk_columns_smart sample chunk_size = .ok chunks ∧
      (chunks.flatMap ColumnChunk.columns).Perm sample.headers ∧
      chunks.map ColumnChunk.chunk_id = List.range chunks.length ∧
      ∀ c ∈ chunks, c.total_chunks = chunks.length) := by
  obtain ⟨⟨chunksF, hF⟩, ⟨chunksS, hS⟩⟩ := chunkers_ok sample chunk_size h1 h2
  obtain ⟨hFc, hFi, hFt⟩ := chunk_columns_shape hF
  obtain ⟨hSc, hSi, hSt⟩ := chunk_columns_smart_shape hS
  constructor
  · refine ⟨chunksF, hF, ?_, hFi, hFt⟩
    rw [List.flatMap_def, hFc, fixedSlices_flatten h2]
  · refine ⟨chunksS, hS, ?_, hSi, hSt⟩
    rw [List.flatMap_def, hSc, packGroups_flatten h2]
    exact buildGroups_flatMap sample.headers

/-- Concrete sample used by the chunker witnesses. -/
def wSample : CSVSample where
  path_stem := "data"
  headers := ["user_id", "user_name", "zip"]
  rows := [[("user_id", some "1"), ("user_name", some "bob"), ("zip", some "10001")]]

/-- Witness for the C5 partition theorem at a concrete sample. -/
theorem C5_chunk_partition_witness :
    (∃ chunks, chunk_columns wSample 2 = .ok chunks ∧
      chunks.flatMap ColumnChunk.columns = wSample.headers ∧
      chunks.map ColumnChunk.chunk_id = List.range chunks.length ∧
      ∀ c ∈ chunks, c.total_chunks = chunks.length) ∧
    (∃ chunks, chunk_columns_smart wSample 2 = .ok chunks ∧
      (chunks.flatMap ColumnChunk.columns).Perm wSample.headers ∧
      chunks.map ColumnChunk.chunk_id = List.range chunks.length ∧
      ∀ c ∈ chunks, c.total_chunks = chunks.length) :=
  C5_chunk_partition wSample 2 (by decide) (by decide)

/-- C6: every chunk of either strategy holds at most `chunk_size` columns;
fixed chunking additionally makes every chunk except possibly the last hold
exactly `chunk_size` columns; and the slicing used by smart chunking to
split an oversized prefix group produces sub-lists of exactly `chunk_size`
columns except possibly the last, which concatenate back to the group. -/
theorem C6_chunk_size_bound (sample : CSVSample) (chunk_size : Nat)
    (h1 : sample.headers ≠ []) (h2 : 1 ≤ chunk_size) :
    (∃ chunks, chunk_columns sample chunk_size = .ok chunks ∧
      (∀ c ∈ chunks, c.columns.length ≤ chunk_size) ∧
      ∀ i (hi : i + 1 < chunks.length),
        ((chunks.get ⟨i, by omega⟩).columns).length = chunk_size) ∧
    (∃ chunks, chunk_columns_smart sample chunk_size = .ok chunks ∧
      ∀ c ∈ chunks, c.columns.length ≤ chunk_size) ∧
    (∀ g : List String,
      (∀ piece ∈ fixedSlices g chunk_size, piece.length ≤ chunk_size) ∧
      (fixedSlices g chunk_size).flatten = g ∧
      ∀ i (hi : i + 1 < (fixedSlices g chunk_size).length),
        ((fixedSlices g chunk_size).get ⟨i, by omega⟩).length = chunk_size) := by
  obtain ⟨⟨chunksF, hF⟩, ⟨chunksS, hS⟩⟩ := chunkers_ok sample chunk_size h1 h2
  obtain ⟨hFc, hFi, hFt⟩ := chunk_columns_shape hF
  obtain ⟨hSc, hSi, hSt⟩ := chunk_columns_smart_shape hS
  refine ⟨⟨chunksF, hF, ?_, ?_⟩, ⟨chunksS, hS, ?_⟩, ?_⟩
  · intro c hc
    have hm : c.columns ∈ fixedSlices sample.headers chunk_size := by
      rw [← hFc]
      exact List.mem_map_of_mem ColumnChunk.columns hc
    exact fixedSlices_le c.columns hm
  · intro i hi
    have hlen : (fixedSlices sample.headers chunk_size).length = chunksF.length := by
      rw [← hFc, List.length_map]
    have hi' : i + 1 < (fixedSlices sample.headers chunk_size).length := by omega
    have e1 : (fixedSlices sample.headers chunk_size).get? i =
        (chunksF.get? i).map ColumnChunk.columns := by
      rw [← hFc, List.get?_map]
    have e2 : chunksF.get? i = some (chunksF.get ⟨i, by omega⟩) := List.get?_eq_get _
    have e3 : (fixedSlices sample.headers chunk_size).get? i =
        some ((fixedSlices sample.headers chunk_size).get ⟨i, by omega⟩) :=
      List.get?_eq_get _
    rw [e3, e2] at e1
    simp only [Option.map_some', Option.some_inj] at e1
    rw [show (chunksF.get ⟨i, by omega⟩).columns =
        (fixedSlices sample.headers chunk_size).get ⟨i, by omega⟩ from e1.symm]
    exact fixedSlices_exact h2 hi'
  · intro c hc
    have hm : c.columns ∈ packGroups chunk_size (buildGroups sample.headers) := by
      rw [← hSc]
      exact List.mem_map_of_mem ColumnChunk.columns hc
    exact packGroups_le _ c.columns hm
  · intro g
    exact ⟨fixedSlices_le, fixedSlices_flatten h2 g, fun i hi => fixedSlices_exact h2 hi⟩

/-- Witness for the C6 size-bound theorem at a concrete sample. -/
theorem C6_chunk_size_bound_witness :
    (∃ chunks, chunk_columns wSample 2 = .ok chunks ∧
      (∀ c ∈ chunks, c.columns.length ≤ 2) ∧
      ∀ i (hi : i + 1 < chunks.length),
        ((chunks.get ⟨i, by omega⟩).columns).length = 2) ∧
    (∃ chunks, chunk_columns_smart wSample 2 = .ok chunks ∧
      ∀ c ∈ chunks, c.columns.length ≤ 2) ∧
    (∀ g : List String,
      (∀ piece ∈ fixedSlices g 2, piece.length ≤ 2) ∧
      (fixedSlices g 2).flatten = g ∧
      ∀ i (hi : i + 1 < (fixedSlices g 2).length),
        ((fixedSlices g 2).get ⟨i, by omega⟩).length = 2) :=
  C6_chunk_size_bound wSample 2 (by decide) (by decide)


/-! ### Claims C9 and C10 — null counting and header order -/

/-- The null percentage is positive when there is at least one null and at
least one row. -/
theorem null_percentage_pos {c : ColumnSample} (h1 : 0 < c.null_count)
    (h2 : 0 < c.total_count) : 0 < c.null_percentage := by
  unfold ColumnSample.null_percentage
  rw [if_neg (by omega)]
  have hn : (0 : Rat) < (c.null_count : Rat) := by exact_mod_cast h1
  have ht : (0 : Rat) < (c.total_count : Rat) := by exact_mod_cast h2
  positivity

/-- Every `ok` result of the classifier carries the sanitized column name,
and is marked nullable whenever the column has a positive null
percentage. -/
theorem heuristic_ok_fields {col : ColumnSample} {r : InferredType}
    (h : heuristic_type_inference col = .ok r) :
    r.column_name = sanitize_column_name col.name ∧
    (0 < col.null_percentage → r.nullable = true) := by
  unfold heuristic_type_inference at h
  dsimp only at h
  repeat' split at h
  all_goals first
    | (simp only [Except.ok.injEq] at h
       subst h
       exact ⟨rfl, fun hp => by simp [decide_eq_true_eq, hp]⟩)
    | simp at h

/-- Idempotence of the sanitizer at `String` level (helper shared by the
order-preservation results). -/
theorem sanitize_column_name_idem (x : String) :
    sanitize_column_name (sanitize_column_name x) = sanitize_column_name x := by
  unfold sanitize_column_name
  exact congrArg String.mk (sanitizeL_idem x.data)

/-- The names of the built column samples are the sanitized headers. -/
theorem build_column_samples_names (sample : CSVSample) :
    (build_column_samples sample).map ColumnSample.name =
      sample.headers.map sanitize_column_name := by
  unfold build_column_samples
  rw [List.map_map]
  refine List.map_congr_left ?_
  intro h _
  rfl

/-- Successful `mapM` over `Except` relates input and output pointwise. -/
theorem mapM_ok_forall₂ {α β : Type} {f : α → Except String β} :
    ∀ {l : List α} {r : List β}, l.mapM f = .ok r →
      List.Forall₂ (fun a b => f a = .ok b) l r := by
  intro l
  induction l with
  | nil =>
    intro r h
    simp only [List.mapM_nil, pure, Except.pure] at h
    simp only [Except.ok.injEq] at h
    subst h
    exact List.Forall₂.nil
  | cons a as ih =>
    intro r h
    rw [List.mapM_cons] at h
    cases hfa : f a with
    | error e =>
      rw [hfa] at h
      simp [bind, Except.bind] at h
    | ok b =>
      rw [hfa] at h
      simp only [bind, Except.bind] at h
      cases hrest : as.mapM f with
      | error e =>
        rw [hrest] at h
        simp at h
      | ok bs =>
        rw [hrest] at h
        simp only [pure, Except.pure, Except.ok.injEq] at h
        subst h
        exact List.Forall₂.cons hfa (ih hrest)

/-- C9: when the tabular sample is turned into per-column samples, a value
that is an empty or whitespace-only string counts toward `null_count`
exactly like a true null; consequently a column holding at least one
blank-string value (and at least one non-blank value) is marked
`nullable = true` by the heuristic classifier even when no value is
`None`. -/
theorem C9_blank_is_null (sample : CSVSample) (cs : ColumnSample)
    (hmem : cs ∈ build_column_samples sample)
    (hblank : ∃ v ∈ cs.values, ∃ s, v = some s ∧ trimS s = "")
    (hnonblank : ∃ v ∈ cs.values, ∃ s, v = some s ∧ trimS s ≠ "") :
    cs.null_count = cs.values.countP (fun v => v.isNone || (trimS (v.getD "") == "")) ∧
    ∀ r, heuristic_type_inference cs = .ok r → r.nullable = true := by
  obtain ⟨col_name, hcmem, rfl⟩ := List.mem_map.1 hmem
  constructor
  · refine List.countP_congr ?_
    intro v _
    cases v with
    | none => rfl
    | some s => rfl
  · intro r hok
    obtain ⟨v, hv, s, rfl, hts⟩ := hblank
    have h1 : 0 < (sample.rows.map fun row => rowGet row col_name).countP fun v =>
        match v with
        | none => true
        | some s => trimS s == "" := by
      refine List.countP_pos.2 ⟨some s, hv, ?_⟩
      simp [hts]
    have h2 : 0 < (sample.rows.map fun row => rowGet row col_name).length :=
      List.length_pos.2 (List.ne_nil_of_mem hv)
    exact (heuristic_ok_fields hok).2 (null_percentage_pos h1 h2)

/-- Concrete sample used by the C9 witness: one blank cell, one non-blank
cell, no true nulls. -/
def w9Sample : CSVSample where
  path_stem := "t"
  headers := ["a"]
  rows := [[("a", some " ")], [("a", some "x")]]

/-- The column sample built from `w9Sample`. -/
def w9cs : ColumnSample where
  name := "a"
  values := [some " ", some "x"]
  null_count := 1
  total_count := 2

/-- Witness for the C9 theorem at a concrete sample. -/
theorem C9_blank_is_null_witness :
    w9cs.null_count = w9cs.values.countP (fun v => v.isNone || (trimS (v.getD "") == "")) ∧
    ∀ r, heuristic_type_inference w9cs = .ok r → r.nullable = true :=
  C9_blank_is_null w9Sample w9cs (by decide)
    ⟨some " ", by decide, " ", rfl, by decide⟩
    ⟨some "x", by decide, "x", rfl, by decide⟩

/-- C10: heuristic-only schema inference preserves the original header
order — when it returns a schema, its column names are exactly the
sanitized headers, one per header, in header order. -/
theorem C10_heuristic_header_order (sample : CSVSample) (schema : TableSchema)
    (h : infer_schema_heuristic sample = .ok schema) :
    schema.columns.map ColumnSchema.name = sample.headers.map sanitize_column_name := by
  unfold infer_schema_heuristic at h
  dsimp only at h
  cases hm : (build_column_samples sample).mapM heuristic_type_inference with
  | error e =>
    rw [hm] at h
    simp [bind, Except.bind] at h
  | ok inferred =>
    rw [hm] at h
    simp only [bind, Except.bind, pure, Except.pure, Except.ok.injEq] at h
    have hcols : schema.columns = inferred.map toColumnSchema := by
      rw [← h]
    rw [hcols, List.map_map]
    have hf := mapM_ok_forall₂ hm
    have hstep : ∀ {l : List ColumnSample} {r : List InferredType},
        List.Forall₂ (fun a b => heuristic_type_inference a = .ok b) l r →
        r.map (ColumnSchema.name ∘ toColumnSchema) =
          l.map (fun cs => sanitize_column_name cs.name) := by
      intro l r hrel
      induction hrel with
      | nil => rfl
      | cons hab htail ih =>
        rw [List.map_cons, List.map_cons, ih]
        congr 1
        exact (heuristic_ok_fields hab).1
    rw [hstep hf]
    have hmm : (build_column_samples sample).map (fun cs => sanitize_column_name cs.name) =
        ((build_column_samples sample).map ColumnSample.name).map sanitize_column_name := by
      rw [List.map_map]
      rfl
    rw [hmm, build_column_samples_names, List.map_map]
    exact List.map_congr_left fun a _ => sanitize_column_name_idem a

/-- Concrete sample for the C10 witness (no sampled rows, so every column
takes the all-null classifier branch, which is fully evaluable). -/
def w10Sample : CSVSample where
  path_stem := "My Data"
  headers := ["User Name", "zip"]
  rows := []

/-- The schema produced heuristically for `w10Sample`. -/
def w10Schema : TableSchema where
  table_name := "my_data"
  columns :=
    [{ name := "user_name", pg_type := "text", nullable := true },
     { name := "zip", pg_type := "text", nullable := true }]
  primary_key := none

unseal List.merge List.mergeSort in
/-- Witness for the C10 theorem at a concrete sample. -/
theorem C10_heuristic_header_order_witness :
    infer_schema_heuristic w10Sample = .ok w10Schema ∧
    w10Schema.columns.map ColumnSchema.name = w10Sample.headers.map sanitize_column_name := by
  have hok : infer_schema_heuristic w10Sample = .ok w10Schema := by decide
  exact ⟨hok, C10_heuristic_header_order w10Sample w10Schema hok⟩


/-! ### Claim C7 — integer range detection -/

/-- Characters consumed by the digit-group loop are digits or underscores. -/
theorem digitsVal_chars {acc : Nat} {l : List Char} {n : Nat}
    (h : digitsVal acc l = some n) : ∀ c ∈ l, isDigitCh c = true ∨ c = '_' := by
  induction acc, l using digitsVal.induct with
  | case1 acc => simp
  | case2 acc c cs hdig ih =>
    rw [digitsVal.eq_def] at h
    dsimp only at h
    rw [if_pos hdig] at h
    intro d hd
    rcases List.mem_cons.1 hd with rfl | hd
    · exact Or.inl hdig
    · exact ih h d hd
  | case3 acc d ds hdig hu ih =>
    rw [digitsVal.eq_def] at h
    dsimp only at h
    rw [if_neg hu, if_pos rfl, if_pos hdig] at h
    intro e he
    rcases List.mem_cons.1 he with rfl | he
    · exact Or.inr rfl
    · rcases List.mem_cons.1 he with rfl | he
      · exact Or.inl hdig
      · exact ih h e he
  | case4 acc d ds hdig hu =>
    rw [digitsVal.eq_def] at h
    dsimp only at h
    rw [if_neg hu, if_pos rfl, if_neg hdig] at h
    exact absurd h (by simp)
  | case5 acc hu =>
    rw [digitsVal.eq_def] at h
    dsimp only at h
    rw [if_neg hu, if_pos rfl] at h
    exact absurd h (by simp)
  | case6 acc c cs hdig hund =>
    rw [digitsVal.eq_def] at h
    dsimp only at h
    rw [if_neg hdig, if_neg hund] at h
    exact absurd h (by simp)

/-- Characters of a successfully parsed digit group are digits or
underscores. -/
theorem parseDigitsU_chars {l : List Char} {n : Nat}
    (h : parseDigitsU l = some n) : ∀ c ∈ l, isDigitCh c = true ∨ c = '_' := by
  cases l with
  | nil => simp
  | cons c cs =>
    rw [parseDigitsU] at h
    by_cases hd : isDigitCh c = true
    · rw [if_pos hd] at h
      intro e he
      rcases List.mem_cons.1 he with rfl | he
      · exact Or.inl hd
      · exact digitsVal_chars h e he
    · rw [if_neg hd] at h
      exact absurd h (by simp)

/-- An element at a valid index is a member. -/
theorem getD_mem {l : List Char} {i : Nat} (h : i < l.length) (d : Char) :
    l.getD i d ∈ l := by
  rw [List.getD_eq_getElem l d h]
  exact List.getElem_mem h

/-- A string that Python parses as an integer never matches the UUID
pattern: position 8 of a UUID holds a dash, but every character of an
integer literal except a leading sign is a digit or an underscore. -/
theorem pyIntL_not_uuid {l : List Char} {n : Int} (h : pyIntL l = some n) :
    isUuidL l = false := by
  by_contra hb
  rw [Bool.not_eq_false] at hb
  unfold isUuidL at hb
  rw [Bool.and_eq_true] at hb
  obtain ⟨hlen, hall⟩ := hb
  have hlen' : l.length = 36 := by simpa using hlen
  have h8 := (List.all_eq_true.1 hall) 8 (by simp)
  rw [if_pos (by omega)] at h8
  have h8' : l.getD 8 ' ' = '-' := by simpa using h8
  have hdash : isDigitCh '-' = true ∨ ('-' : Char) = '_' := by
    rcases l with _ | ⟨c, cs⟩
    · simp at hlen'
    have hcslen : cs.length = 35 := by
      simp at hlen'
      omega
    rw [pyIntL] at h
    by_cases hplus : c = '+'
    · rw [if_pos hplus] at h
      cases hpd : parseDigitsU cs with
      | none =>
        rw [hpd] at h
        simp at h
      | some m =>
        have hcs := parseDigitsU_chars hpd
        have hg : (c :: cs).getD 8 ' ' = cs.getD 7 ' ' := rfl
        rw [hg] at h8'
        exact h8' ▸ hcs _ (getD_mem (by omega) ' ')
    · rw [if_neg hplus] at h
      by_cases hminus : c = '-'
      · rw [if_pos hminus] at h
        cases hpd : parseDigitsU cs with
        | none =>
          rw [hpd] at h
          simp at h
        | some m =>
          have hcs := parseDigitsU_chars hpd
          have hg : (c :: cs).getD 8 ' ' = cs.getD 7 ' ' := rfl
          rw [hg] at h8'
          exact h8' ▸ hcs _ (getD_mem (by omega) ' ')
      · rw [if_neg hminus] at h
        cases hpd : parseDigitsU (c :: cs) with
        | none =>
          rw [hpd] at h
          simp at h
        | some m =>
          have hcs := parseDigitsU_chars hpd
          exact h8' ▸ hcs _ (@getD_mem (c :: cs) 8 (by omega) ' ')
  rcases hdash with hd | hd
  · revert hd
    decide
  · exact absurd hd (by decide)

/-- Elements of a list are bounded by the running fold of `max`. -/
theorem foldl_max_bounds (xs : List Int) (a : Int) :
    a ≤ xs.foldl max a ∧ ∀ x ∈ xs, x ≤ xs.foldl max a := by
  induction xs generalizing a with
  | nil => simp
  | cons b bs ih =>
    obtain ⟨h1, h2⟩ := ih (max a b)
    rw [List.foldl_cons]
    refine ⟨le_trans (le_max_left a b) h1, ?_⟩
    intro x hx
    rcases List.mem_cons.1 hx with rfl | hx
    · exact le_trans (le_max_right a x) h1
    · exact h2 x hx

/-- The fold of `max` is the seed or a list element. -/
theorem foldl_max_mem (xs : List Int) (a : Int) :
    xs.foldl max a = a ∨ xs.foldl max a ∈ xs := by
  induction xs generalizing a with
  | nil => simp
  | cons b bs ih =>
    rw [List.foldl_cons]
    rcases ih (max a b) with h | h
    · rcases max_choice a b with hm | hm
      · exact Or.inl (h.trans hm)
      · refine Or.inr ?_
        rw [h, hm]
        exact List.mem_cons_self b bs
    · exact Or.inr (List.mem_cons_of_mem b h)

/-- Elements bound the running fold of `min` from above. -/
theorem foldl_min_bounds (xs : List Int) (a : Int) :
    xs.foldl min a ≤ a ∧ ∀ x ∈ xs, xs.foldl min a ≤ x := by
  induction xs generalizing a with
  | nil => simp
  | cons b bs ih =>
    obtain ⟨h1, h2⟩ := ih (min a b)
    rw [List.foldl_cons]
    refine ⟨le_trans h1 (min_le_left a b), ?_⟩
    intro x hx
    rcases List.mem_cons.1 hx with rfl | hx
    · exact le_trans h1 (min_le_right a x)
    · exact h2 x hx

/-- The fold of `min` is the seed or a list element. -/
theorem foldl_min_mem (xs : List Int) (a : Int) :
    xs.foldl min a = a ∨ xs.foldl min a ∈ xs := by
  induction xs generalizing a with
  | nil => simp
  | cons b bs ih =>
    rw [List.foldl_cons]
    rcases ih (min a b) with h | h
    · rcases min_choice a b with hm | hm
      · exact Or.inl (h.trans hm)
      · refine Or.inr ?_
        rw [h, hm]
        exact List.mem_cons_self b bs
    · exact Or.inr (List.mem_cons_of_mem b h)

/-- `maxI` bounds every element of a non-empty list and belongs to it. -/
theorem maxI_spec {l : List Int} (h : l ≠ []) :
    maxI l ∈ l ∧ ∀ x ∈ l, x ≤ maxI l := by
  rcases l with _ | ⟨a, xs⟩
  · exact absurd rfl h
  constructor
  · show xs.foldl max a ∈ a :: xs
    rcases foldl_max_mem xs a with hm | hm
    · rw [hm]
      exact List.mem_cons_self a xs
    · exact List.mem_cons_of_mem a hm
  · intro x hx
    show x ≤ xs.foldl max a
    rcases List.mem_cons.1 hx with rfl | hx
    · exact (foldl_max_bounds xs x).1
    · exact (foldl_max_bounds xs a).2 x hx

/-- `minI` bounds every element of a non-empty list and belongs to it. -/
theorem minI_spec {l : List Int} (h : l ≠ []) :
    minI l ∈ l ∧ ∀ x ∈ l, minI l ≤ x := by
  rcases l with _ | ⟨a, xs⟩
  · exact absurd rfl h
  constructor
  · show xs.foldl min a ∈ a :: xs
    rcases foldl_min_mem xs a with hm | hm
    · rw [hm]
      exact List.mem_cons_self a xs
    · exact List.mem_cons_of_mem a hm
  · intro x hx
    show xs.foldl min a ≤ x
    rcases List.mem_cons.1 hx with rfl | hx
    · exact (foldl_min_bounds xs x).1
    · exact (foldl_min_bounds xs a).2 x hx

/-- A substring match at the very front. -/
theorem hasSubL_self_append (t b : List Char) : hasSubL (t ++ b) t = true := by
  cases ht : t ++ b with
  | nil =>
    have : t = [] := by
      cases t
      · rfl
      · simp at ht
    rw [hasSubL, this]
    rfl
  | cons c rest =>
    rw [hasSubL, ← ht, startsWith_append]
    simp

/-- Substring matches survive prepending. -/
theorem hasSubL_append_left (a rest t : List Char) (h : hasSubL rest t = true) :
    hasSubL (a ++ rest) t = true := by
  induction a with
  | nil => simpa using h
  | cons c cs ih =>
    rw [List.cons_append, hasSubL]
    rw [ih]
    simp

/-- A successful `mapM` over `Option` succeeds on every element. -/
theorem mapM_option_mem {α β : Type} {f : α → Option β} :
    ∀ {l : List α} {r : List β}, l.mapM f = some r →
      ∀ a ∈ l, ∃ b, f a = some b := by
  intro l
  induction l with
  | nil => simp
  | cons a as ih =>
    intro r h e he
    rw [List.mapM_cons] at h
    cases hfa : f a with
    | none =>
      rw [hfa] at h
      simp [bind, Option.bind] at h
    | some b =>
      rw [hfa] at h
      simp only [bind, Option.bind] at h
      cases hrest : as.mapM f with
      | none =>
        rw [hrest] at h
        simp at h
      | some bs =>
        rcases List.mem_cons.1 he with rfl | he
        · exact ⟨b, hfa⟩
        · exact ih hrest e he

/-- A successful `mapM` over `Option` preserves length. -/
theorem mapM_option_length {α β : Type} {f : α → Option β} :
    ∀ {l : List α} {r : List β}, l.mapM f = some r → r.length = l.length := by
  intro l
  induction l with
  | nil =>
    intro r h
    simp only [List.mapM_nil, pure, Option.some.injEq] at h
    rw [← h]
    rfl
  | cons a as ih =>
    intro r h
    rw [List.mapM_cons] at h
    cases hfa : f a with
    | none =>
      rw [hfa] at h
      simp [bind, Option.bind] at h
    | some b =>
      rw [hfa] at h
      simp only [bind, Option.bind] at h
      cases hrest : as.mapM f with
      | none =>
        rw [hrest] at h
        simp at h
      | some bs =>
        rw [hrest] at h
        simp only [pure, Option.some.injEq] at h
        rw [← h]
        simp [ih hrest]

/-- C7, amended: when the sampled non-null, non-blank values are all
integer-parseable, at least one value was sampled, and the values are not
all boolean-like (the boolean test precedes the integer test and captures
columns such as all-`"0"`/`"1"`; matching the UUID pattern is impossible for
integer literals), the classifier returns `integer` exactly when every
parsed value lies in `[-2147483648, 2147483647]` and `bigint` when some
value lies outside, with HIGH confidence and a reasoning string containing
the observed minimum and maximum. -/
theorem C7_integer_range_amended (column : ColumnSample) (int_values : List Int)
    (hne : (column.values.filterMap id).filter (fun v => !(trimS v == "")) ≠ [])
    (hint : ((((column.values.filterMap id).filter fun v => !(trimS v == "")).take 100).map
        trimS).mapM (fun v => pyIntL v.data) = some int_values)
    (hnb : ((((column.values.filterMap id).filter fun v => !(trimS v == "")).take 100).map
        trimS).all isBooleanLikeS = false) :
    ∃ r, heuristic_type_inference column = .ok r ∧
      r.pg_type = (if -2147483648 ≤ minI int_values ∧ minI int_values ≤ 2147483647 ∧
          -2147483648 ≤ maxI int_values ∧ maxI int_values ≤ 2147483647
        then "integer" else "bigint") ∧
      ((∀ x ∈ int_values, -2147483648 ≤ x ∧ x ≤ 2147483647) → r.pg_type = "integer") ∧
      ((∃ x ∈ int_values, x < -2147483648 ∨ 2147483647 < x) → r.pg_type = "bigint") ∧
      r.confidence = ConfidenceLevel.high ∧
      hasSubS r.reasoning (toString (minI int_values)) = true ∧
      hasSubS r.reasoning (toString (maxI int_values)) = true := by
  have hsv_ne : (((column.values.filterMap id).filter fun v => !(trimS v == "")).take 100).map
      trimS ≠ [] := by
    simp only [ne_eq, List.map_eq_nil_iff, List.take_eq_nil_iff]
    push_neg
    exact ⟨by omega, hne⟩
  obtain ⟨v0, t0, hsv⟩ := List.exists_cons_of_ne_nil hsv_ne
  have hv0 : v0 ∈ (((column.values.filterMap id).filter fun v => !(trimS v == "")).take 100).map
      trimS := by
    rw [hsv]
    exact List.mem_cons_self v0 t0
  obtain ⟨n0, hn0⟩ := mapM_option_mem hint v0 hv0
  have huuid_all : ((((column.values.filterMap id).filter fun v =>
      !(trimS v == "")).take 100).map trimS).all (fun v => isUuidL v.data) = false := by
    rw [Bool.eq_false_iff]
    intro hall
    have := List.all_eq_true.1 hall v0 hv0
    rw [pyIntL_not_uuid hn0] at this
    simp at this
  have hiv_ne : int_values ≠ [] := by
    intro hnil
    have := mapM_option_length hint
    rw [hnil, hsv] at this
    simp at this
  unfold heuristic_type_inference
  dsimp only
  rw [if_neg hne, huuid_all, hnb]
  simp only [Bool.false_eq_true, if_false]
  rw [hint]
  refine ⟨_, rfl, rfl, ?_, ?_, rfl, ?_, ?_⟩
  · intro hall
    show (if _ then "integer" else "bigint") = "integer"
    rw [if_pos]
    obtain ⟨hminm, -⟩ := minI_spec hiv_ne
    obtain ⟨hmaxm, -⟩ := maxI_spec hiv_ne
    obtain ⟨a1, a2⟩ := hall _ hminm
    obtain ⟨b1, b2⟩ := hall _ hmaxm
    exact ⟨a1, a2, b1, b2⟩
  · rintro ⟨x, hx, hout⟩
    show (if _ then "integer" else "bigint") = "bigint"
    rw [if_neg]
    rintro ⟨c1, -, -, c4⟩
    obtain ⟨-, hminle⟩ := minI_spec hiv_ne
    obtain ⟨-, hmaxle⟩ := maxI_spec hiv_ne
    have h1 := hminle x hx
    have h2 := hmaxle x hx
    omega
  · show hasSubS ("All values are integers (range: " ++ toString (minI int_values) ++
      " to " ++ toString (maxI int_values) ++ ")") (toString (minI int_values)) = true
    unfold hasSubS
    simp only [String.data_append, List.append_assoc]
    exact hasSubL_append_left _ _ _ (hasSubL_self_append _ _)
  · show hasSubS ("All values are integers (range: " ++ toString (minI int_values) ++
      " to " ++ toString (maxI int_values) ++ ")") (toString (maxI int_values)) = true
    unfold hasSubS
    simp only [String.data_append, List.append_assoc]
    exact hasSubL_append_left _ _ _ (hasSubL_append_left _ _ _
      (hasSubL_append_left _ _ _ (hasSubL_self_append _ _)))


/-- C7, counterexample: a column whose values are all `"0"`/`"1"` is
all-integer-parseable and in 32-bit range, but the boolean pattern test
precedes the integer test, so the classifier returns `boolean`, not
`integer` as the claim requires. -/
theorem C7_counterexample :
    heuristic_type_inference
      { name := "c", values := [some "0", some "1"], null_count := 0, total_count := 0 } =
    .ok { column_name := "c", pg_type := "boolean", confidence := ConfidenceLevel.high,
          reasoning := "All values are boolean-like", nullable := false } := by decide

/-- Concrete column for the C7 witness: one value out of 32-bit range. -/
def w7col : ColumnSample where
  name := "c"
  values := [some "5", some "2147483648"]
  null_count := 0
  total_count := 0

/-- Witness for the amended C7 theorem at a concrete column. -/
theorem C7_integer_range_amended_witness :
    ∃ r, heuristic_type_inference w7col = .ok r ∧
      r.pg_type = (if -2147483648 ≤ minI [5, 2147483648] ∧ minI [5, 2147483648] ≤ 2147483647 ∧
          -2147483648 ≤ maxI [5, 2147483648] ∧ maxI [5, 2147483648] ≤ 2147483647
        then "integer" else "bigint") ∧
      ((∀ x ∈ [(5 : Int), 2147483648], -2147483648 ≤ x ∧ x ≤ 2147483647) →
        r.pg_type = "integer") ∧
      ((∃ x ∈ [(5 : Int), 2147483648], x < -2147483648 ∨ 2147483647 < x) →
        r.pg_type = "bigint") ∧
      r.confidence = ConfidenceLevel.high ∧
      hasSubS r.reasoning (toString (minI [5, 2147483648])) = true ∧
      hasSubS r.reasoning (toString (maxI [5, 2147483648])) = true :=
  C7_integer_range_amended w7col [5, 2147483648] (by decide) (by decide) (by decide)


/-! ### Claim C2 — systemic failure without fallback -/

unseal List.merge List.mergeSort in
/-- C2, counterexample: with fallback disabled and every chunk request
failing (the capability is entirely unreachable), `infer_schema_async` does
not fail hard: `asyncio.gather(..., return_exceptions=True)` folds every
task exception into the result list, the surrounding `except`/`raise` never
fires, and the function returns a `TableSchema` with zero columns. -/
theorem C2_counterexample :
    infer_schema_async { path_stem := "t", headers := ["a", "b"], rows := [] }
      (fun _ => .error "ConnectionError: capability unreachable") 1 false false =
    .ok { table_name := "t", columns := [], primary_key := none } := by decide

/-- The primary-key pass selects nothing from an empty column list. -/
theorem select_primary_key_nil : select_primary_key [] = none := by
  simp only [select_primary_key, List.flatMap_nil, List.mergeSort_nil]

/-- C2, amended: if every chunk request fails and `use_fallback` is false,
`infer_schema_async` does not raise — it returns a `TableSchema` with an
empty column list (and no primary key); per-chunk exceptions are folded into
the gather results, so the hard-failure path is unreachable from capability
failures. -/
theorem C2_total_failure_no_fallback (sample : CSVSample)
    (oracle : ColumnChunk → Except String (List InferredType))
    (chunk_size : Nat) (use_smart_chunking : Bool)
    (h1 : sample.headers ≠ []) (h2 : 1 ≤ chunk_size)
    (hfail : ∀ c, ∃ e, oracle c = .error e) :
    ∃ schema, infer_schema_async sample oracle chunk_size use_smart_chunking false =
        .ok schema ∧
      schema.columns = [] ∧ schema.primary_key = none := by
  obtain ⟨⟨chunksF, hF⟩, ⟨chunksS, hS⟩⟩ := chunkers_ok sample chunk_size h1 h2
  have hallok : ∀ chunks : List ColumnChunk, (chunks.map oracle).filterMap (fun r =>
      match r with
      | .ok tys => some tys
      | .error _ => none) = [] := by
    intro chunks
    rw [List.filterMap_eq_nil_iff]
    intro r hr
    obtain ⟨c, -, rfl⟩ := List.mem_map.1 hr
    obtain ⟨e, he⟩ := hfail c
    rw [he]
  by_cases hsm : use_smart_chunking = true
  · subst hsm
    unfold infer_schema_async
    dsimp only
    rw [hS]
    simp only [bind, Except.bind, hallok chunksS, Bool.and_false, Bool.false_eq_true,
      if_false, pure, Except.pure, List.flatten_nil, List.nil_append, List.map_nil,
      select_primary_key_nil]
    exact ⟨_, rfl, rfl, rfl⟩
  · have hsm' : use_smart_chunking = false := by simpa using hsm
    subst hsm'
    unfold infer_schema_async
    dsimp only
    rw [hF]
    simp only [bind, Except.bind, hallok chunksF, Bool.and_false, Bool.false_eq_true,
      if_false, pure, Except.pure, List.flatten_nil, List.nil_append, List.map_nil,
      select_primary_key_nil]
    exact ⟨_, rfl, rfl, rfl⟩

/-- Witness for the amended C2 theorem at a concrete input. -/
theorem C2_total_failure_no_fallback_witness :
    ∃ schema, infer_schema_async
        { path_stem := "t2", headers := ["x_1", "y"], rows := [] }
        (fun _ => .error "boom") 2 true false = .ok schema ∧
      schema.columns = [] ∧ schema.primary_key = none :=
  C2_total_failure_no_fallback _ _ 2 true (by decide) (by decide)
    (fun c => ⟨"boom", rfl⟩)


/-! ### Claim C1 — per-chunk fallback merge -/

/-- `filterMap` over a list where the function always succeeds produces a
pointwise-related list. -/
theorem filterMap_all_some {α β : Type} {f : α → Option β} {P : α → β → Prop} :
    ∀ {l : List α}, (∀ a ∈ l, ∃ b, f a = some b ∧ P a b) →
      List.Forall₂ (fun a b => f a = some b ∧ P a b) l (l.filterMap f) := by
  intro l
  induction l with
  | nil => exact fun _ => List.Forall₂.nil
  | cons a as ih =>
    intro h
    obtain ⟨b, hb, hP⟩ := h a (List.mem_cons_self a as)
    rw [List.filterMap_cons, hb]
    exact List.Forall₂.cons ⟨hb, hP⟩ (ih fun x hx => h x (List.mem_cons_of_mem a hx))

/-- Composition of two pointwise relations. -/
theorem forall₂_compose {α β γ : Type} {R : α → β → Prop} {S : β → γ → Prop} :
    ∀ {l : List α} {m : List β} {k : List γ},
      List.Forall₂ R l m → List.Forall₂ S m k →
      List.Forall₂ (fun a c => ∃ b, R a b ∧ S b c) l k := by
  intro l
  induction l with
  | nil =>
    intro m k h1 h2
    cases h1
    cases h2
    exact List.Forall₂.nil
  | cons a as ih =>
    intro m k h1 h2
    cases h1 with
    | cons hab h1' =>
      cases h2 with
      | cons hbc h2' =>
        exact List.Forall₂.cons ⟨_, hab, hbc⟩ (ih h1' h2')

/-- A pointwise relation provides a related partner for every member. -/
theorem forall₂_mem_left {α β : Type} {R : α → β → Prop} :
    ∀ {l : List α} {m : List β}, List.Forall₂ R l m → ∀ a ∈ l, ∃ b ∈ m, R a b := by
  intro l
  induction l with
  | nil => simp
  | cons x xs ih =>
    intro m h a ha
    cases h with
    | cons hxy htail =>
      rcases List.mem_cons.1 ha with rfl | ha
      · exact ⟨_, List.mem_cons_self _ _, hxy⟩
      · obtain ⟨b, hbm, hb⟩ := ih htail a ha
        exact ⟨b, List.mem_cons_of_mem _ hbm, hb⟩

/-- The successful results of an all-ok chunk list flatten to the chunk
columns (stated with the exact success-extraction function of
`infer_schema_async`). -/
theorem filterMap_ok_names {oracle : ColumnChunk → Except String (List InferredType)}
    {L : List ColumnChunk}
    (hok : ∀ c ∈ L, ∃ tys, oracle c = .ok tys ∧
      tys.map InferredType.column_name = c.columns) :
    ∃ T : List (List InferredType),
      (L.map oracle).filterMap (fun r =>
        match r with
        | .ok tys => some tys
        | .error _ => none) = T ∧
      T.flatten.map InferredType.column_name = L.flatMap ColumnChunk.columns := by
  induction L with
  | nil => exact ⟨[], rfl, rfl⟩
  | cons c L' ih =>
    obtain ⟨tys, htys, hnames⟩ := hok c (List.mem_cons_self c L')
    obtain ⟨T', hT', hTn⟩ := ih fun d hd => hok d (List.mem_cons_of_mem c hd)
    refine ⟨tys :: T', ?_, ?_⟩
    · rw [List.map_cons, List.filterMap_cons, htys, hT']
    · rw [List.flatten_cons, List.map_append, hTn, hnames, List.flatMap_cons]

/-- An all-ok chunk list contributes no failed chunks (stated with the exact
failure-extraction function of `infer_schema_async`). -/
theorem zip_failed_nil {oracle : ColumnChunk → Except String (List InferredType)}
    {L : List ColumnChunk}
    (hok : ∀ c ∈ L, ∃ tys, oracle c = .ok tys ∧
      tys.map InferredType.column_name = c.columns) :
    (L.zip (L.map oracle)).filterMap (fun cr =>
      match cr.2 with
      | .error _ => some cr.1
      | .ok _ => none) = [] := by
  induction L with
  | nil => rfl
  | cons c L' ih =>
    obtain ⟨tys, htys, -⟩ := hok c (List.mem_cons_self c L')
    rw [List.map_cons, List.zip_cons_cons, List.filterMap_cons, htys]
    exact ih fun d hd => hok d (List.mem_cons_of_mem c hd)

/-- With all other chunks succeeding and `cj` failing, the failed-chunk
extraction yields exactly `[cj]`. -/
theorem failed_singleton {oracle : ColumnChunk → Except String (List InferredType)}
    {A B : List ColumnChunk} {cj : ColumnChunk} {e : String}
    (hokA : ∀ c ∈ A, ∃ tys, oracle c = .ok tys ∧
      tys.map InferredType.column_name = c.columns)
    (hokB : ∀ c ∈ B, ∃ tys, oracle c = .ok tys ∧
      tys.map InferredType.column_name = c.columns)
    (hfailj : oracle cj = .error e) :
    ((A ++ cj :: B).zip ((A ++ cj :: B).map oracle)).filterMap (fun cr =>
      match cr.2 with
      | .error _ => some cr.1
      | .ok _ => none) = [cj] := by
  induction A with
  | nil =>
    rw [List.nil_append, List.map_cons, List.zip_cons_cons, List.filterMap_cons, hfailj]
    rw [zip_failed_nil hokB]
  | cons a A' ih =>
    obtain ⟨tys, htys, -⟩ := hokA a (List.mem_cons_self a A')
    rw [List.cons_append, List.map_cons, List.zip_cons_cons, List.filterMap_cons, htys]
    exact ih fun d hd => hokA d (List.mem_cons_of_mem a hd)

/-- Names of the flattened successful results around one failed chunk. -/
theorem allok_names {oracle : ColumnChunk → Except String (List InferredType)}
    {A B : List ColumnChunk} {cj : ColumnChunk} {e : String}
    (hokA : ∀ c ∈ A, ∃ tys, oracle c = .ok tys ∧
      tys.map InferredType.column_name = c.columns)
    (hokB : ∀ c ∈ B, ∃ tys, oracle c = .ok tys ∧
      tys.map InferredType.column_name = c.columns)
    (hfailj : oracle cj = .error e) :
    ((((A ++ cj :: B).map oracle).filterMap (fun r =>
        match r with
        | .ok tys => some tys
        | .error _ => none)).flatten).map InferredType.column_name =
      A.flatMap ColumnChunk.columns ++ B.flatMap ColumnChunk.columns := by
  obtain ⟨TA, hTA, hTAn⟩ := filterMap_ok_names hokA
  obtain ⟨TB, hTB, hTBn⟩ := filterMap_ok_names hokB
  simp only [List.map_append, List.map_cons, List.filterMap_append, List.filterMap_cons,
    hfailj, hTA, hTB]
  rw [List.flatten_append, List.map_append, hTAn, hTBn]

/-- A header that is a fixed point of sanitization is found in the sample
map under its own name. -/
theorem dictFind_found {sample : CSVSample} {n : String}
    (hfix : ∀ h ∈ sample.headers, sanitize_column_name h = h)
    (hmem : n ∈ sample.headers) :
    ∃ cs, dictFind (build_column_samples sample) n = some cs ∧ cs.name = n := by
  have hmm : n ∈ (build_column_samples sample).map ColumnSample.name := by
    rw [build_column_samples_names]
    have : sanitize_column_name n = n := hfix n hmem
    exact this ▸ List.mem_map_of_mem sanitize_column_name hmem
  obtain ⟨cs, hcsm, hcsn⟩ := List.mem_map.1 hmm
  have hex : ∃ x ∈ (build_column_samples sample).reverse, (x.name == n) = true :=
    ⟨cs, List.mem_reverse.2 hcsm, by simp [hcsn]⟩
  unfold dictFind
  cases hfd : (build_column_samples sample).reverse.find? (fun x => x.name == n) with
  | none =>
    rw [List.find?_eq_none] at hfd
    obtain ⟨x, hx, hpx⟩ := hex
    exact absurd hpx (by simpa using hfd x hx)
  | some found =>
    have := List.find?_some hfd
    exact ⟨found, rfl, by simpa using this⟩

/-- Fallback results carry exactly the looked-up column names. -/
theorem fallback_names_of_forall₂ {css : List ColumnSample} :
    ∀ {ns : List String} {fl : List InferredType},
      List.Forall₂ (fun n t => ∃ cs : ColumnSample,
        (dictFind css n = some cs ∧ cs.name = n) ∧
          heuristic_type_inference cs = .ok t) ns fl →
      (∀ n ∈ ns, sanitize_column_name n = n) →
      fl.map InferredType.column_name = ns := by
  intro ns
  induction ns with
  | nil =>
    intro fl h _
    cases h
    rfl
  | cons n ns' ih =>
    intro fl h hfix
    cases h with
    | cons hnt htail =>
      obtain ⟨cs, ⟨-, hname⟩, hok⟩ := hnt
      rw [List.map_cons, ih htail fun m hm => hfix m (List.mem_cons_of_mem n hm)]
      congr 1
      rw [(heuristic_ok_fields hok).1, hname]
      exact hfix n (List.mem_cons_self n ns')

/-- The joined chunk columns of a successful chunking permute the headers
(either strategy). -/
theorem chunks_join_perm {sample : CSVSample} {chunk_size : Nat}
    {use_smart_chunking : Bool} {chunks : List ColumnChunk}
    (h : (if use_smart_chunking then chunk_columns_smart sample chunk_size
      else chunk_columns sample chunk_size) = .ok chunks) :
    (chunks.flatMap ColumnChunk.columns).Perm sample.headers := by
  by_cases hsm : use_smart_chunking = true
  · subst hsm
    rw [if_pos rfl] at h
    have hsz : ¬(chunk_size = 0) := by
      intro h0
      subst h0
      unfold chunk_columns_smart at h
      by_cases hl : sample.headers.length = 0
      · rw [if_pos hl] at h
        exact absurd h (by simp)
      · rw [if_neg hl, if_pos rfl] at h
        exact absurd h (by simp)
    obtain ⟨hc, -, -⟩ := chunk_columns_smart_shape h
    rw [List.flatMap_def, hc, packGroups_flatten (by omega)]
    exact buildGroups_flatMap sample.headers
  · have hsm' : use_smart_chunking = false := by simpa using hsm
    subst hsm'
    rw [if_neg (by simp)] at h
    have hsz : ¬(chunk_size = 0) := by
      intro h0
      subst h0
      unfold chunk_columns at h
      by_cases hl : sample.headers.length = 0
      · rw [if_pos hl] at h
        exact absurd h (by simp)
      · rw [if_neg hl, if_pos rfl] at h
        exact absurd h (by simp)
    obtain ⟨hc, -, -⟩ := chunk_columns_shape h
    rw [List.flatMap_def, hc, fixedSlices_flatten (by omega)]


/-- Core of the amended C1 claim, phrased on the merged schema shape. -/
theorem fallback_merge_core (sample : CSVSample)
    (oracle : ColumnChunk → Except String (List InferredType))
    (A B : List ColumnChunk) (cj : ColumnChunk) (e : String)
    (fl : List InferredType) (schema : TableSchema)
    (hfix : ∀ h ∈ sample.headers, sanitize_column_name h = h)
    (hokA : ∀ c ∈ A, ∃ tys, oracle c = .ok tys ∧
      tys.map InferredType.column_name = c.columns)
    (hokB : ∀ c ∈ B, ∃ tys, oracle c = .ok tys ∧
      tys.map InferredType.column_name = c.columns)
    (hfailj : oracle cj = .error e)
    (hjoin : ((A ++ cj :: B).flatMap ColumnChunk.columns).Perm sample.headers)
    (hfb : (cj.columns.filterMap fun col_name =>
        dictFind (build_column_samples sample) col_name).mapM
      heuristic_type_inference = .ok fl)
    (hcols : schema.columns = ((((A ++ cj :: B).map oracle).filterMap (fun r =>
        match r with
        | .ok tys => some tys
        | .error _ => none)).flatten ++ fl).map toColumnSchema) :
    (schema.columns.map ColumnSchema.name).Perm sample.headers ∧
    ∀ n ∈ cj.columns, ∃ cs t col,
      dictFind (build_column_samples sample) n = some cs ∧
      heuristic_type_inference cs = .ok t ∧ col ∈ schema.columns ∧ col.name = n ∧
      col.pg_type = t.pg_type ∧ col.nullable = t.nullable ∧
      col.constraints = t.constraints := by
  have hmemh : ∀ n ∈ cj.columns, n ∈ sample.headers := by
    intro n hn
    refine hjoin.subset ?_
    exact List.mem_flatMap.2
      ⟨cj, List.mem_append_right A (List.mem_cons_self cj B), hn⟩
  have hfixn : ∀ n ∈ cj.columns, sanitize_column_name n = n :=
    fun n hn => hfix n (hmemh n hn)
  have hlook : ∀ n ∈ cj.columns, ∃ cs,
      dictFind (build_column_samples sample) n = some cs ∧ cs.name = n :=
    fun n hn => dictFind_found hfix (hmemh n hn)
  have h1 := @filterMap_all_some String ColumnSample
    (fun col_name => dictFind (build_column_samples sample) col_name)
    (fun n cs => cs.name = n) cj.columns hlook
  have h2 := mapM_ok_forall₂ hfb
  have h3 := forall₂_compose h1 h2
  have hflnames := fallback_names_of_forall₂ h3 hfixn
  constructor
  · rw [hcols, List.map_map]
    have hcomp : (ColumnSchema.name ∘ toColumnSchema) = InferredType.column_name := rfl
    rw [hcomp, List.map_append, allok_names hokA hokB hfailj, hflnames]
    refine List.Perm.trans ?_ hjoin
    rw [List.flatMap_append, List.flatMap_cons, List.append_assoc]
    exact List.Perm.append_left _ List.perm_append_comm
  · intro n hn
    obtain ⟨t, htm, cs, ⟨hdict, hname⟩, hheur⟩ := forall₂_mem_left h3 n hn
    refine ⟨cs, t, toColumnSchema t, hdict, hheur, ?_, ?_, rfl, rfl, rfl⟩
    · rw [hcols]
      exact List.mem_map_of_mem toColumnSchema (List.mem_append_right _ htm)
    · show t.column_name = n
      rw [(heuristic_ok_fields hheur).1, hname]
      exact hfixn n hn


/-- C1, amended: when every header is already in sanitized form, exactly one
chunk `cj` fails at the capability while all other chunks succeed with one
result per column, and fallback is enabled, any schema returned by
`infer_schema_async` has exactly the original columns (its column-name list
is a permutation of the headers), and every column of the failed chunk is
resolved by `heuristic_type_inference` applied directly to that column's
`ColumnSample`, with identical `pg_type`, `nullable` and `constraints`.  (On
headers that sanitization rewrites, the fallback lookup misses and the
column is silently dropped — see the counterexample.) -/
theorem C1_fallback_merge_amended (sample : CSVSample)
    (oracle : ColumnChunk → Except String (List InferredType))
    (chunk_size : Nat) (use_smart_chunking : Bool)
    (A B : List ColumnChunk) (cj : ColumnChunk) (e : String) (schema : TableSchema)
    (hfix : ∀ h ∈ sample.headers, sanitize_column_name h = h)
    (hchunks : (if use_smart_chunking then chunk_columns_smart sample chunk_size
      else chunk_columns sample chunk_size) = .ok (A ++ cj :: B))
    (hokA : ∀ c ∈ A, ∃ tys, oracle c = .ok tys ∧
      tys.map InferredType.column_name = c.columns)
    (hokB : ∀ c ∈ B, ∃ tys, oracle c = .ok tys ∧
      tys.map InferredType.column_name = c.columns)
    (hfailj : oracle cj = .error e)
    (hres : infer_schema_async sample oracle chunk_size use_smart_chunking true =
      .ok schema) :
    (schema.columns.map ColumnSchema.name).Perm sample.headers ∧
    ∀ n ∈ cj.columns, ∃ cs t col,
      dictFind (build_column_samples sample) n = some cs ∧
      heuristic_type_inference cs = .ok t ∧ col ∈ schema.columns ∧ col.name = n ∧
      col.pg_type = t.pg_type ∧ col.nullable = t.nullable ∧
      col.constraints = t.constraints := by
  have hjoin := chunks_join_perm hchunks
  have hfailed := failed_singleton hokA hokB hfailj
  by_cases hsm : use_smart_chunking = true
  · subst hsm
    rw [if_pos rfl] at hchunks
    unfold infer_schema_async at hres
    dsimp only at hres
    rw [hchunks] at hres
    simp only [bind, Except.bind] at hres
    rw [hfailed] at hres
    simp only [List.isEmpty_cons, Bool.not_false, Bool.and_true, if_true] at hres
    cases hfb : fallback_types sample [cj] with
    | error err =>
      rw [hfb] at hres
      simp at hres
    | ok fl =>
      rw [hfb] at hres
      simp only [pure, Except.pure, Except.ok.injEq] at hres
      have hcols : schema.columns = ((((A ++ cj :: B).map oracle).filterMap (fun r =>
          match r with
          | .ok tys => some tys
          | .error _ => none)).flatten ++ fl).map toColumnSchema := by
        rw [← hres]
      unfold fallback_types at hfb
      dsimp only at hfb
      simp only [List.flatMap_cons, List.flatMap_nil, List.append_nil] at hfb
      exact fallback_merge_core sample oracle A B cj e fl schema hfix hokA hokB hfailj
        hjoin hfb hcols
  · have hsm' : use_smart_chunking = false := by simpa using hsm
    subst hsm'
    rw [if_neg (by simp)] at hchunks
    unfold infer_schema_async at hres
    dsimp only at hres
    rw [if_neg Bool.false_ne_true] at hres
    rw [hchunks] at hres
    simp only [bind, Except.bind] at hres
    rw [hfailed] at hres
    simp only [List.isEmpty_cons, Bool.not_false, Bool.and_true, if_true] at hres
    cases hfb : fallback_types sample [cj] with
    | error err =>
      rw [hfb] at hres
      simp at hres
    | ok fl =>
      rw [hfb] at hres
      simp only [pure, Except.pure, Except.ok.injEq] at hres
      have hcols : schema.columns = ((((A ++ cj :: B).map oracle).filterMap (fun r =>
          match r with
          | .ok tys => some tys
          | .error _ => none)).flatten ++ fl).map toColumnSchema := by
        rw [← hres]
      unfold fallback_types at hfb
      dsimp only at hfb
      simp only [List.flatMap_cons, List.flatMap_nil, List.append_nil] at hfb
      exact fallback_merge_core sample oracle A B cj e fl schema hfix hokA hokB hfailj
        hjoin hfb hcols

/-- Witness sample for the fallback-merge theorem: two already-sanitized
headers, no rows. -/
def w1Sample : CSVSample := { path_stem := "t", headers := ["a", "b"], rows := [] }

/-- Witness oracle: succeeds on the chunk holding column `a`, fails on the
chunk holding column `b`. -/
def w1Oracle : ColumnChunk → Except String (List InferredType) := fun c =>
  if c.columns = ["a"] then
    .ok [{ column_name := "a", pg_type := "text", confidence := ConfidenceLevel.low,
           reasoning := "cap", nullable := true }]
  else .error "boom"

/-- The failing chunk of the witness run. -/
def w1cj : ColumnChunk :=
  { chunk_id := 1, total_chunks := 2, columns := ["b"], sample_data := [] }

/-- The succeeding chunk of the witness run. -/
def w1cA : ColumnChunk :=
  { chunk_id := 0, total_chunks := 2, columns := ["a"], sample_data := [] }

instance : DecidableEq (Except String (List InferredType)) := fun a b =>
  match a, b with
  | .ok x, .ok y => decidable_of_iff (x = y) (by simp)
  | .error x, .error y => decidable_of_iff (x = y) (by simp)
  | .ok _, .error _ => isFalse (by simp)
  | .error _, .ok _ => isFalse (by simp)

/-- The schema the witness run returns: both columns present, the failed
column `b` resolved heuristically (all-null sample, so `text`, nullable). -/
def w1Schema : TableSchema :=
  { table_name := "t",
    columns := [{ name := "a", pg_type := "text", nullable := true },
                { name := "b", pg_type := "text", nullable := true }],
    primary_key := none }

unseal List.merge List.mergeSort in
/-- Witness: the fallback-merge theorem applied to a concrete two-column run
where the chunk holding `a` succeeds and the chunk holding `b` fails. -/
theorem C1_fallback_merge_amended_witness :
    ((w1Schema.columns.map ColumnSchema.name).Perm w1Sample.headers) ∧
    (∀ n ∈ w1cj.columns, ∃ cs t col,
      dictFind (build_column_samples w1Sample) n = some cs ∧
      heuristic_type_inference cs = .ok t ∧ col ∈ w1Schema.columns ∧ col.name = n ∧
      col.pg_type = t.pg_type ∧ col.nullable = t.nullable ∧
      col.constraints = t.constraints) :=
  C1_fallback_merge_amended w1Sample w1Oracle 1 false [w1cA] [] w1cj "boom" w1Schema
    (by decide)
    (by decide)
    (by
      intro c hc
      simp only [List.mem_singleton] at hc
      subst hc
      exact ⟨[{ column_name := "a", pg_type := "text", confidence := ConfidenceLevel.low,
                reasoning := "cap", nullable := true }], by decide, by decide⟩)
    (by simp)
    (by decide)
    (by decide)

unseal List.merge List.mergeSort in
/-- C1 counterexample: the header `"Id!"` sanitizes to `"id"`, so the
fallback map is keyed `"id"` while the failed chunk carries the raw name
`"Id!"`; the lookup misses and the column is silently dropped — the schema
has zero columns instead of the one the claim promises. -/
theorem C1_counterexample :
    infer_schema_async
      { path_stem := "t", headers := ["Id!"], rows := [[("Id!", some "5")]] }
      (fun _ => .error "boom") 1 false true =
      .ok { table_name := "t", columns := [], primary_key := none } := by decide

end Csv2pg
